import Mathlib

/-!
Shallow embedding of the storj bridge-client-javascript repository:
request construction and signing (`lib/client.js`, `index.js`), the
`kad-spartacus` keypair helper (hash160 node ids, ECDSA sign/verify),
response handling, upload orchestration (`storeFileInBucket`) and
shard resolution (`resolveFileFromPointers`).

Bytes are modelled as `List ℕ` with every element kept below 256 by
construction; 32-bit words are `ℕ` reduced modulo `2 ^ 32` explicitly.
-/

namespace BridgeClient

/-! ### Bytes, hex and UTF-8 -/

/-- One 32-bit word: reduce modulo `2 ^ 32`. -/
def w32 (n : ℕ) : ℕ := n % 2 ^ 32

/-- Lowercase hex digit for a nibble, as produced by node's
`Buffer.prototype.toString('hex')` and bn.js `toString('hex')`. -/
def hexDigit (n : ℕ) : Char :=
  if n = 0 then '0' else if n = 1 then '1' else if n = 2 then '2'
  else if n = 3 then '3' else if n = 4 then '4' else if n = 5 then '5'
  else if n = 6 then '6' else if n = 7 then '7' else if n = 8 then '8'
  else if n = 9 then '9' else if n = 10 then 'a' else if n = 11 then 'b'
  else if n = 12 then 'c' else if n = 13 then 'd' else if n = 14 then 'e'
  else 'f'

/-- Hex encoding of one byte (two lowercase digits). -/
def byteToHex (b : ℕ) : List Char := [hexDigit (b / 16), hexDigit (b % 16)]

/-- Hex encoding of a byte list, as `buffer.toString('hex')`. -/
def bytesToHex (bs : List ℕ) : String := String.mk (bs.flatMap byteToHex)

/-- Numeric value of a hex digit character, accepting both cases. -/
def hexCharVal (c : Char) : Option ℕ :=
  if c = '0' then some 0 else if c = '1' then some 1 else if c = '2' then some 2
  else if c = '3' then some 3 else if c = '4' then some 4 else if c = '5' then some 5
  else if c = '6' then some 6 else if c = '7' then some 7 else if c = '8' then some 8
  else if c = '9' then some 9 else if c = 'a' ∨ c = 'A' then some 10
  else if c = 'b' ∨ c = 'B' then some 11 else if c = 'c' ∨ c = 'C' then some 12
  else if c = 'd' ∨ c = 'D' then some 13 else if c = 'e' ∨ c = 'E' then some 14
  else if c = 'f' ∨ c = 'F' then some 15 else none

/-- Strict hex decoding over a character list: fails on an odd length or on
any non-hex character. -/
def hexPairsToBytes : List Char → Option (List ℕ)
  | [] => some []
  | [_] => none
  | c₁ :: c₂ :: rest =>
    match hexCharVal c₁, hexCharVal c₂, hexPairsToBytes rest with
    | some h, some l, some bs => some ((h * 16 + l) :: bs)
    | _, _, _ => none

/-- Strict hex decoding of a string. -/
def hexToBytes (s : String) : Option (List ℕ) := hexPairsToBytes s.data

/-- Node `Buffer.from(string, 'hex')` semantics: decoding stops silently at
the first invalid pair (including an odd trailing digit); it never throws on
a string input. -/
def nodeHexBytes : List Char → List ℕ
  | [] => []
  | [_] => []
  | c₁ :: c₂ :: rest =>
    match hexCharVal c₁, hexCharVal c₂ with
    | some h, some l => (h * 16 + l) :: nodeHexBytes rest
    | _, _ => []

/-- Node hex decoding of a string (truncating, non-throwing). -/
def nodeHexDecode (s : String) : List ℕ := nodeHexBytes s.data

/-- UTF-8 encoding of a single code point. -/
def utf8Char (n : ℕ) : List ℕ :=
  if n < 0x80 then [n]
  else if n < 0x800 then [0xC0 + n / 64, 0x80 + n % 64]
  else if n < 0x10000 then [0xE0 + n / 4096, 0x80 + n / 64 % 64, 0x80 + n % 64]
  else [0xF0 + n / 262144, 0x80 + n / 4096 % 64, 0x80 + n / 64 % 64, 0x80 + n % 64]

/-- UTF-8 encoding of a string, the byte sequence node buffers use for it. -/
def utf8Encode (s : String) : List ℕ := s.data.flatMap (fun c => utf8Char c.toNat)

/-- Big-endian byte rendering of a natural number on `len` bytes, as
bn.js `toString('hex', 2 * len)` followed by hex decoding. -/
def natToBytesBE (len n : ℕ) : List ℕ :=
  (List.range len).map (fun i => n / 256 ^ (len - 1 - i) % 256)

/-- Big-endian value of a byte list. -/
def bytesToNatBE (bs : List ℕ) : ℕ := bs.foldl (fun acc b => acc * 256 + b) 0

/-! ### SHA-256 (`crypto.createHash('sha256')`) -/

/-- Right rotation of a 32-bit word by `n` bits. -/
def rotr32 (n x : ℕ) : ℕ := w32 (x / 2 ^ n + x % 2 ^ n * 2 ^ (32 - n))

/-- Bitwise exclusive or of three words. -/
def xor3 (a b c : ℕ) : ℕ := Nat.xor (Nat.xor a b) c

/-- SHA-256 round constants, in the eight rows of FIPS 180-4 §4.2.2. -/
def shaK : List ℕ :=
  [0x428a2f98, 0x71374491, 0xb5c0fbcf, 0xe9b5dba5, 0x3956c25b, 0x59f111f1,
   0x923f82a4, 0xab1c5ed5] ++
  [0xd807aa98, 0x12835b01, 0x243185be, 0x550c7dc3, 0x72be5d74, 0x80deb1fe,
   0x9bdc06a7, 0xc19bf174] ++
  [0xe49b69c1, 0xefbe4786, 0x0fc19dc6, 0x240ca1cc, 0x2de92c6f, 0x4a7484aa,
   0x5cb0a9dc, 0x76f988da] ++
  [0x983e5152, 0xa831c66d, 0xb00327c8, 0xbf597fc7, 0xc6e00bf3, 0xd5a79147,
   0x06ca6351, 0x14292967] ++
  [0x27b70a85, 0x2e1b2138, 0x4d2c6dfc, 0x53380d13, 0x650a7354, 0x766a0abb,
   0x81c2c92e, 0x92722c85] ++
  [0xa2bfe8a1, 0xa81a664b, 0xc24b8b70, 0xc76c51a3, 0xd192e819, 0xd6990624,
   0xf40e3585, 0x106aa070] ++
  [0x19a4c116, 0x1e376c08, 0x2748774c, 0x34b0bcb5, 0x391c0cb3, 0x4ed8aa4a,
   0x5b9cca4f, 0x682e6ff3] ++
  [0x748f82ee, 0x78a5636f, 0x84c87814, 0x8cc70208, 0x90befffa, 0xa4506ceb,
   0xbef9a3f7, 0xc67178f2]

/-- SHA-256 initial hash state. -/
def shaH0 : List ℕ :=
  [0x6a09e667, 0xbb67ae85, 0x3c6ef372, 0xa54ff53a,
   0x510e527f, 0x9b05688c, 0x1f83d9ab, 0x5be0cd19]

/-- MD-style padding with a big-endian 64-bit bit length. -/
def sha256Pad (msg : List ℕ) : List ℕ :=
  let l := msg.length
  let zeros := (64 - (l + 9) % 64) % 64
  msg ++ [0x80] ++ List.replicate zeros 0 ++ natToBytesBE 8 (l * 8)

/-- Big-endian 32-bit words of a byte list. -/
def bytesToWordsBE : List ℕ → List ℕ
  | b₀ :: b₁ :: b₂ :: b₃ :: rest =>
    (((b₀ * 256 + b₁) * 256 + b₂) * 256 + b₃) :: bytesToWordsBE rest
  | _ => []

/-- Message-schedule extension: grow the 16 block words to 64. -/
def shaExtend : ℕ → List ℕ → List ℕ
  | 0, ws => ws
  | t + 1, ws =>
    let i := ws.length
    let w15 := ws.getD (i - 15) 0
    let w2 := ws.getD (i - 2) 0
    let s0 := xor3 (rotr32 7 w15) (rotr32 18 w15) (w15 / 2 ^ 3)
    let s1 := xor3 (rotr32 17 w2) (rotr32 19 w2) (w2 / 2 ^ 10)
    shaExtend t (ws ++ [w32 (ws.getD (i - 16) 0 + s0 + ws.getD (i - 7) 0 + s1)])

/-- One SHA-256 compression round. -/
def shaRound (st : List ℕ) (kw : ℕ × ℕ) : List ℕ :=
  match st with
  | [a, b, c, d, e, f, g, h] =>
    let s1 := xor3 (rotr32 6 e) (rotr32 11 e) (rotr32 25 e)
    let ch := Nat.xor (Nat.land e f) (Nat.land (Nat.xor e 0xffffffff) g)
    let t1 := w32 (h + s1 + ch + kw.1 + kw.2)
    let s0 := xor3 (rotr32 2 a) (rotr32 13 a) (rotr32 22 a)
    let mj := xor3 (Nat.land a b) (Nat.land a c) (Nat.land b c)
    let t2 := w32 (s0 + mj)
    [w32 (t1 + t2), a, b, c, w32 (d + t1), e, f, g]
  | st => st

/-- Compress one 64-byte block into the running state. -/
def shaBlock (st : List ℕ) (block : List ℕ) : List ℕ :=
  let ws := shaExtend 48 (bytesToWordsBE block)
  let fin := (shaK.zip ws).foldl (fun s kw => shaRound s kw) st
  (st.zip fin).map (fun p => w32 (p.1 + p.2))

/-- Split a byte list into 64-byte blocks, by fuel-bounded structural
recursion so that it evaluates by kernel reduction. -/
def chunksGo : ℕ → List ℕ → List (List ℕ)
  | 0, _ => []
  | _, [] => []
  | fuel + 1, b :: bs => (b :: bs).take 64 :: chunksGo fuel ((b :: bs).drop 64)

/-- Split a byte list into 64-byte blocks. -/
def chunks64 (bs : List ℕ) : List (List ℕ) := chunksGo bs.length bs

/-- SHA-256 of a byte list, as a 32-byte digest. -/
def sha256 (msg : List ℕ) : List ℕ :=
  ((chunks64 (sha256Pad msg)).foldl shaBlock shaH0).flatMap (natToBytesBE 4)

/-- SHA-256 hex digest of a string input, the behaviour of
`crypto.createHash('sha256').update(str).digest('hex')` and of
`storj.utils.sha256`. -/
def sha256Hex (s : String) : String := bytesToHex (sha256 (utf8Encode s))

/-! ### RIPEMD-160 (`crypto.createHash('rmd160')`) -/

/-- Little-endian byte rendering of a natural number on `len` bytes. -/
def natToBytesLE (len n : ℕ) : List ℕ :=
  (List.range len).map (fun i => n / 256 ^ i % 256)

/-- Little-endian 32-bit words of a byte list. -/
def bytesToWordsLE : List ℕ → List ℕ
  | b₀ :: b₁ :: b₂ :: b₃ :: rest =>
    (((b₃ * 256 + b₂) * 256 + b₁) * 256 + b₀) :: bytesToWordsLE rest
  | _ => []

/-- Left rotation of a 32-bit word by `n` bits. -/
def rotl32 (n x : ℕ) : ℕ := w32 (x % 2 ^ (32 - n) * 2 ^ n + x / 2 ^ (32 - n))

/-- Bitwise complement of a 32-bit word. -/
def not32 (x : ℕ) : ℕ := Nat.xor x 0xffffffff

/-- RIPEMD-160 selection function for step `j`. -/
def rmdF (j x y z : ℕ) : ℕ :=
  if j < 16 then xor3 x y z
  else if j < 32 then Nat.lor (Nat.land x y) (Nat.land (not32 x) z)
  else if j < 48 then Nat.xor (Nat.lor x (not32 y)) z
  else if j < 64 then Nat.lor (Nat.land x z) (Nat.land y (not32 z))
  else Nat.xor x (Nat.lor y (not32 z))

/-- RIPEMD-160 left-line round constants. -/
def rmdKL (j : ℕ) : ℕ :=
  if j < 16 then 0 else if j < 32 then 0x5a827999 else if j < 48 then 0x6ed9eba1
  else if j < 64 then 0x8f1bbcdc else 0xa953fd4e

/-- RIPEMD-160 right-line round constants. -/
def rmdKR (j : ℕ) : ℕ :=
  if j < 16 then 0x50a28be6 else if j < 32 then 0x5c4dd124 else if j < 48 then 0x6d703ef3
  else if j < 64 then 0x7a6d76e9 else 0

/-- RIPEMD-160 left-line message ordering. -/
def rmdRL : List ℕ :=
  [0, 1, 2, 3, 4, 5, 6, 7, 8, 9, 10, 11, 12, 13, 14, 15,
   7, 4, 13, 1, 10, 6, 15, 3, 12, 0, 9, 5, 2, 14, 11, 8,
   3, 10, 14, 4, 9, 15, 8, 1, 2, 7, 0, 6, 13, 11, 5, 12,
   1, 9, 11, 10, 0, 8, 12, 4, 13, 3, 7, 15, 14, 5, 6, 2,
   4, 0, 5, 9, 7, 12, 2, 10, 14, 1, 3, 8, 11, 6, 15, 13]

/-- RIPEMD-160 right-line message ordering. -/
def rmdRR : List ℕ :=
  [5, 14, 7, 0, 9, 2, 11, 4, 13, 6, 15, 8, 1, 10, 3, 12,
   6, 11, 3, 7, 0, 13, 5, 10, 14, 15, 8, 12, 4, 9, 1, 2,
   15, 5, 1, 3, 7, 14, 6, 9, 11, 8, 12, 2, 10, 0, 4, 13,
   8, 6, 4, 1, 3, 11, 15, 0, 5, 12, 2, 13, 9, 7, 10, 14,
   12, 15, 10, 4, 1, 5, 8, 7, 6, 2, 13, 14, 0, 3, 9, 11]

/-- RIPEMD-160 left-line rotation amounts. -/
def rmdSL : List ℕ :=
  [11, 14, 15, 12, 5, 8, 7, 9, 11, 13, 14, 15, 6, 7, 9, 8,
   7, 6, 8, 13, 11, 9, 7, 15, 7, 12, 15, 9, 11, 7, 13, 12,
   11, 13, 6, 7, 14, 9, 13, 15, 14, 8, 13, 6, 5, 12, 7, 5,
   11, 12, 14, 15, 14, 15, 9, 8, 9, 14, 5, 6, 8, 6, 5, 12,
   9, 15, 5, 11, 6, 8, 13, 12, 5, 12, 13, 14, 11, 8, 5, 6]

/-- RIPEMD-160 right-line rotation amounts. -/
def rmdSR : List ℕ :=
  [8, 9, 9, 11, 13, 15, 15, 5, 7, 7, 8, 11, 14, 14, 12, 6,
   9, 13, 15, 7, 12, 8, 9, 11, 7, 7, 12, 7, 6, 15, 13, 11,
   9, 7, 15, 11, 8, 6, 6, 14, 12, 13, 5, 14, 13, 13, 7, 5,
   15, 5, 8, 11, 14, 14, 6, 14, 6, 9, 12, 9, 12, 5, 15, 8,
   8, 5, 12, 9, 12, 5, 14, 6, 8, 13, 6, 5, 15, 13, 11, 11]

/-- One RIPEMD-160 line step: `fSel` gives the selection index and `kOf` the
round constant for step `j`; `r`/`s` are the ordering and rotation tables. -/
def rmdStep (X r s : List ℕ) (fSel kOf : ℕ → ℕ) (st : List ℕ) (j : ℕ) : List ℕ :=
  match st with
  | [a, b, c, d, e] =>
    let t := w32 (rotl32 (s.getD j 0)
      (w32 (a + rmdF (fSel j) b c d + X.getD (r.getD j 0) 0 + kOf j)) + e)
    [e, t, b, rotl32 10 c, d]
  | st => st

/-- Compress one 64-byte block into the RIPEMD-160 running state. -/
def rmdBlock (h : List ℕ) (block : List ℕ) : List ℕ :=
  let X := bytesToWordsLE block
  let lf := (List.range 80).foldl (rmdStep X rmdRL rmdSL (fun j => j) rmdKL) h
  let rt := (List.range 80).foldl (rmdStep X rmdRR rmdSR (fun j => 79 - j) rmdKR) h
  match h, lf, rt with
  | [h₀, h₁, h₂, h₃, h₄], [a, b, c, d, e], [a', b', c', d', e'] =>
    [w32 (h₁ + c + d'), w32 (h₂ + d + e'), w32 (h₃ + e + a'),
     w32 (h₄ + a + b'), w32 (h₀ + b + c')]
  | h, _, _ => h

/-- MD-style padding with a little-endian 64-bit bit length. -/
def rmdPad (msg : List ℕ) : List ℕ :=
  let l := msg.length
  let zeros := (64 - (l + 9) % 64) % 64
  msg ++ [0x80] ++ List.replicate zeros 0 ++ natToBytesLE 8 (l * 8)

/-- RIPEMD-160 of a byte list, as a 20-byte digest. -/
def rmd160 (msg : List ℕ) : List ℕ :=
  ((chunks64 (rmdPad msg)).foldl rmdBlock
    [0x67452301, 0xefcdab89, 0x98badcfe, 0x10325476, 0xc3d2e1f0]).flatMap (natToBytesLE 4)

/-! ### JSON values (JS objects carried as request parameters and bodies) -/

/-- JSON-like JS values: the universe of request parameters and parsed
response bodies used by the client. Object fields keep insertion order, as
JS string-keyed properties do. -/
inductive Json where
  | null
  | bool (b : Bool)
  | num (n : ℕ)
  | str (s : String)
  | arr (items : List Json)
  | obj (fields : List (String × Json))

/-- Escape of one character inside a JSON string literal, following
`JSON.stringify`. -/
def jsonEscapeChar (c : Char) : List Char :=
  if c = '"' then ['\\', '"']
  else if c = '\\' then ['\\', '\\']
  else if c.toNat = 8 then ['\\', 'b']
  else if c.toNat = 9 then ['\\', 't']
  else if c.toNat = 10 then ['\\', 'n']
  else if c.toNat = 12 then ['\\', 'f']
  else if c.toNat = 13 then ['\\', 'r']
  else if c.toNat < 32 then
    ['\\', 'u', '0', '0', hexDigit (c.toNat / 16), hexDigit (c.toNat % 16)]
  else [c]

/-- JSON string literal for `s`, with quotes. -/
def jsonQuote (s : String) : String :=
  "\"" ++ String.mk (s.data.flatMap jsonEscapeChar) ++ "\""

/-- Serialization of a value as `JSON.stringify` renders it: object fields in
insertion order, no added whitespace. -/
def jsonStringify : Json → String
  | .null => "null"
  | .bool true => "true"
  | .bool false => "false"
  | .num n => toString n
  | .str s => jsonQuote s
  | .arr items =>
    "[" ++ String.intercalate "," (items.attach.map fun it => jsonStringify it.1) ++ "]"
  | .obj fields =>
    "\x7b" ++ String.intercalate ","
      (fields.attach.map fun kv => jsonQuote kv.1.1 ++ ":" ++ jsonStringify kv.1.2) ++ "\x7d"
decreasing_by
  · have := List.sizeOf_lt_of_mem it.2
    simp only [Json.arr.sizeOf_spec]
    omega
  · have h1 := List.sizeOf_lt_of_mem kv.2
    have h2 : sizeOf kv.1.2 < sizeOf kv.1 := by
      cases kv1 : kv.1 with
      | mk a b => simp [kv1]
    simp only [Json.obj.sizeOf_spec]
    omega

/-- Conversion of a value to a string as JS `String(x)` does (the message an
`Error(x)` ends up with when `x` is not a string). -/
def jsToString : Json → String
  | .null => "null"
  | .bool true => "true"
  | .bool false => "false"
  | .num n => toString n
  | .str s => s
  | .arr items => String.intercalate "," (items.attach.map fun it => jsToString it.1)
  | .obj _ => "[object Object]"
decreasing_by
  have := List.sizeOf_lt_of_mem it.2
  simp only [Json.arr.sizeOf_spec]
  omega

/-- Field lookup on an object value (`undefined` elsewhere). -/
def getField (j : Json) (k : String) : Option Json :=
  match j with
  | .obj fields => (fields.find? (fun kv => kv.1 = k)).map (·.2)
  | _ => none

/-- JS truthiness of a value. -/
def jsTruthy : Json → Bool
  | .null => false
  | .bool b => b
  | .num n => n ≠ 0
  | .str s => s ≠ ""
  | _ => true

/-! ### Node `querystring.stringify` -/

/-- Uppercase hex digit, as node's percent-encoding table uses. -/
def hexDigitUpper (n : ℕ) : Char :=
  if n = 0 then '0' else if n = 1 then '1' else if n = 2 then '2'
  else if n = 3 then '3' else if n = 4 then '4' else if n = 5 then '5'
  else if n = 6 then '6' else if n = 7 then '7' else if n = 8 then '8'
  else if n = 9 then '9' else if n = 10 then 'A' else if n = 11 then 'B'
  else if n = 12 then 'C' else if n = 13 then 'D' else if n = 14 then 'E'
  else 'F'

/-- Bytes left unescaped by `querystring.escape` (the `encodeURIComponent`
unreserved set: alphanumerics and `- . _ ~ ! * ' ( )`). -/
def qsSafeByte (b : ℕ) : Bool :=
  (48 ≤ b && b ≤ 57) || (65 ≤ b && b ≤ 90) || (97 ≤ b && b ≤ 122) ||
    (b = 33 || b = 39 || b = 40 || b = 41 || b = 42 || b = 45 || b = 46 || b = 95 || b = 126)

/-- Percent-encoding of a string over its UTF-8 bytes (`querystring.escape`). -/
def qsEscape (s : String) : String :=
  String.mk ((utf8Encode s).flatMap fun b =>
    if qsSafeByte b then [Char.ofNat b]
    else ['%', hexDigitUpper (b / 16), hexDigitUpper (b % 16)])

/-- Rendering of one primitive value inside a query string
(`stringifyPrimitive` in node's querystring: strings stay, numbers and
booleans print, everything else becomes the empty string). -/
def qsPrimitive : Json → String
  | .str s => s
  | .num n => toString n
  | .bool true => "true"
  | .bool false => "false"
  | _ => ""

/-- Key-value pairs emitted for one property: arrays repeat the key. -/
def qsPair (k : String) : Json → List String
  | .arr items => items.map (fun it => qsEscape k ++ "=" ++ qsEscape (qsPrimitive it))
  | v => [qsEscape k ++ "=" ++ qsEscape (qsPrimitive v)]

/-- Node `querystring.stringify` over an object. -/
def qsStringify (ps : List (String × Json)) : String :=
  String.intercalate "&" (ps.flatMap fun kv => qsPair kv.1 kv.2)

/-! ### Request construction (`Client.prototype._request`,
`MetaDiskClient.prototype._request`) -/

/-- HTTP verbs the clients issue. -/
inductive Method where
  | GET
  | POST
  | PUT
  | PATCH
  | DELETE
deriving DecidableEq, Repr

/-- Verb as the string it is compared and serialized as. -/
def methodStr : Method → String
  | .GET => "GET"
  | .POST => "POST"
  | .PUT => "PUT"
  | .PATCH => "PATCH"
  | .DELETE => "DELETE"

/-- The check `['GET', 'DELETE'].indexOf(method) !== -1` both `_request` and
`_authenticate` perform. -/
def isGetOrDelete : Method → Bool
  | .GET => true
  | .DELETE => true
  | _ => false

/-- JS property assignment on a string-keyed object kept as an ordered
association list: overwrite in place or append. -/
def setKV {α : Type} (l : List (String × α)) (k : String) (v : α) : List (String × α) :=
  if l.any (fun kv => kv.1 = k) then l.map (fun kv => if kv.1 = k then (k, v) else kv)
  else l ++ [(k, v)]

/-- The statement `params.__nonce = Date.now()`, with `now` the sampled
wall-clock milliseconds. -/
def setNonce (ps : List (String × Json)) (now : ℕ) : List (String × Json) :=
  setKV ps "__nonce" (.num now)

/-- The options object handed to `request(...)`: method, path, either a
query-string object (with `json: true`) or a JSON body, headers, and
optional HTTP basic-auth. -/
structure ReqOpts where
  method : Method
  uri : String
  qs : Option (List (String × Json)) := none
  jsonFlag : Bool := false
  jsonBody : Option (List (String × Json)) := none
  headers : List (String × String) := []
  auth : Option (String × String) := none

/-- Request options built by `_request` before authentication (identical in
`lib/client.js` and `index.js`): add `__nonce`, then place the parameters in
the query string for GET/DELETE and in the JSON body otherwise. -/
def requestOpts (m : Method) (path : String) (params : List (String × Json)) (now : ℕ) :
    ReqOpts :=
  let ps := setNonce params now
  if isGetOrDelete m then
    { method := m, uri := path, qs := some ps, jsonFlag := true }
  else
    { method := m, uri := path, jsonBody := some ps }

/-! ### Request authentication (`Client.prototype._authenticate`,
`MetaDiskClient.prototype._authenticate`) -/

/-- The payload component of the canonical string: the URL-encoded query
string for GET/DELETE and the JSON-serialized body otherwise. -/
def authPayload (o : ReqOpts) : String :=
  if isGetOrDelete o.method then qsStringify (o.qs.getD [])
  else jsonStringify (.obj (o.jsonBody.getD []))

/-- The canonical string `[opts.method, opts.uri, payload].join('\n')` that
a keypair credential signs. -/
def authContract (o : ReqOpts) : String :=
  String.intercalate "\n" [methodStr o.method, o.uri, authPayload o]

/-- A keypair credential as `lib/client.js` consumes it: a public key string
and a signing routine (`storj.KeyPair`). -/
structure SigningKeyPair where
  pub : String
  signFn : String → String

/-- Constructor options of the `Client` in `lib/client.js`. -/
structure ClientOptions where
  keypair : Option SigningKeyPair := none
  basicauth : Option (String × String) := none

/-- The `_authenticate` of `lib/client.js`: a keypair credential signs the
canonical string into `x-pubkey`/`x-signature` headers; otherwise a
basic-auth credential sets `opts.auth` with the SHA-256 hex of the password;
otherwise the options pass through untouched. -/
def authenticate (co : ClientOptions) (o : ReqOpts) : ReqOpts :=
  match co.keypair with
  | some kp =>
    let hs := setKV (setKV o.headers "x-pubkey" kp.pub) "x-signature"
      (kp.signFn (authContract o))
    { o with headers := hs }
  | none =>
    match co.basicauth with
    | some ba => { o with auth := some (ba.1, sha256Hex ba.2) }
    | none => o

/-- Constructor options of the `MetaDiskClient` in `index.js`. -/
structure MetaDiskOptions where
  privkey : Option String := none
  email : Option String := none
  password : Option String := none

/-- JS truthiness of an optional string option (absent or empty is falsy). -/
def truthyS : Option String → Bool
  | none => false
  | some s => s ≠ ""

/-- The `_authenticate` of `index.js`, parameterized by the key-pair
operations `pubOf`/`signWith` that `KeyPair(privkey)` provides. -/
def mdAuthenticate (pubOf : String → String) (signWith : String → String → String)
    (co : MetaDiskOptions) (o : ReqOpts) : ReqOpts :=
  if truthyS co.privkey then
    let pk := co.privkey.getD ""
    let hs := setKV (setKV o.headers "x-pubkey" (pubOf pk)) "x-signature"
      (signWith pk (authContract o))
    { o with headers := hs }
  else if truthyS co.email && truthyS co.password then
    { o with auth := some (co.email.getD "", sha256Hex (co.password.getD "")) }
  else o

/-! ### Response handling -/

/-- Outcome of one HTTP exchange as the `request` callback reports it:
either a transport error or a status code with the parsed body. -/
inductive HttpResult where
  | failure (err : String)
  | response (status : ℕ) (body : Json)

/-- Message of the `Error` built from `body.error || body`. -/
def errorMessage (body : Json) : String :=
  match getField body "error" with
  | some e => if jsTruthy e then jsToString e else jsToString body
  | none => jsToString body

/-- The response handler inside `_request` of `lib/client.js`: a transport
error rejects with it; a status of 400 or above rejects with
`new Error(body.error || body)`; anything else resolves with the body. -/
def libHandle : HttpResult → Except String Json
  | .failure e => .error e
  | .response st body => if 400 ≤ st then .error (errorMessage body) else .ok body

/-- The response handler inside `_request` of `index.js` (also used by the
direct helpers in both files): rejects unless the status is 200 or 304. -/
def mdHandle : HttpResult → Except String Json
  | .failure e => .error e
  | .response st body =>
    if st ≠ 200 ∧ st ≠ 304 then .error (errorMessage body) else .ok body

/-! ### Helper lemmas on ordered key-value maps -/

/-- Value lookup on an ordered association list (JS property read). -/
def lookupKV {α : Type} (l : List (String × α)) (k : String) : Option α :=
  (l.find? (fun kv => kv.1 = k)).map (·.2)

theorem lookupKV_setKV {α : Type} (l : List (String × α)) (k : String) (v : α) :
    lookupKV (setKV l k v) k = some v := by
  unfold setKV
  by_cases h : l.any (fun kv => kv.1 = k)
  · simp only [if_pos h]
    induction l with
    | nil => simp at h
    | cons hd tl ih =>
      by_cases hk : hd.1 = k
      · simp [lookupKV, List.find?, hk]
      · have htl : tl.any (fun kv => kv.1 = k) := by
          simpa [List.any_cons, hk] using h
        simpa [lookupKV, List.find?, hk] using ih htl
  · simp only [if_neg h]
    have hnone : l.find? (fun kv => kv.1 = k) = none := by
      rw [List.find?_eq_none]
      intro x hx hpx
      exact h (List.any_eq_true.mpr ⟨x, hx, hpx⟩)
    simp [lookupKV, List.find?_append, hnone, List.find?]

theorem intercalate_newline_three (a b c : String) :
    String.intercalate "\n" [a, b, c] = a ++ "\n" ++ b ++ "\n" ++ c := by
  simp [String.intercalate, String.intercalate.go, String.append_assoc]

/-! ### Claim C1 -/

/-- C1: for every request built with a keypair credential, the canonical
string that is signed (and placed in `x-signature`) is exactly
`METHOD ++ "\n" ++ PATH ++ "\n" ++ PAYLOAD`, with PAYLOAD the URL-encoded
query string (including `__nonce`) for GET/DELETE and the JSON-serialized
body otherwise. -/
theorem canonical_signing_string (kp : SigningKeyPair) (ba : Option (String × String))
    (m : Method) (path : String) (params : List (String × Json)) (now : ℕ) :
    authContract (requestOpts m path params now) =
      methodStr m ++ "\n" ++ path ++ "\n" ++
        (if isGetOrDelete m then qsStringify (setNonce params now)
         else jsonStringify (.obj (setNonce params now))) ∧
    lookupKV (authenticate { keypair := some kp, basicauth := ba }
        (requestOpts m path params now)).headers "x-signature" =
      some (kp.signFn (methodStr m ++ "\n" ++ path ++ "\n" ++
        (if isGetOrDelete m then qsStringify (setNonce params now)
         else jsonStringify (.obj (setNonce params now))))) := by
  have hc : authContract (requestOpts m path params now) =
      methodStr m ++ "\n" ++ path ++ "\n" ++
        (if isGetOrDelete m then qsStringify (setNonce params now)
         else jsonStringify (.obj (setNonce params now))) := by
    cases m <;>
      simp [authContract, authPayload, requestOpts, isGetOrDelete,
        intercalate_newline_three, String.append_assoc]
  refine ⟨hc, ?_⟩
  rw [show (authenticate { keypair := some kp, basicauth := ba }
      (requestOpts m path params now)).headers =
    setKV (setKV (requestOpts m path params now).headers "x-pubkey" kp.pub) "x-signature"
      (kp.signFn (authContract (requestOpts m path params now))) from rfl, hc]
  exact lookupKV_setKV _ _ _

/-! ### Claim C8 -/

/-- C8: every request built by `_request` carries `__nonce` equal to the
wall-clock milliseconds sampled at construction time, placed in the query
string for GET/DELETE and in the JSON body otherwise; the builder is a pure
function of the sampled clock, so no monotonicity across requests is
enforced. -/
theorem nonce_placement (m : Method) (path : String) (params : List (String × Json))
    (now : ℕ) :
    (requestOpts m path params now).qs =
      (if isGetOrDelete m then some (setNonce params now) else none) ∧
    (requestOpts m path params now).jsonBody =
      (if isGetOrDelete m then none else some (setNonce params now)) ∧
    (requestOpts m path params now).jsonFlag = isGetOrDelete m ∧
    lookupKV (setNonce params now) "__nonce" = some (.num now) := by
  refine ⟨?_, ?_, ?_, lookupKV_setKV _ _ _⟩ <;>
    · unfold requestOpts
      split <;> simp_all

/-! ### Claim C3 -/

/-- C3: exactly one authentication branch fires. A keypair credential sets
only the `x-pubkey`/`x-signature` headers (no basic-auth), a basic-auth
credential sets only `opts.auth` (no signature headers), and with neither
credential the request passes through unauthenticated — in both clients. -/
theorem auth_branch_exclusivity :
    (∀ (kp : SigningKeyPair) (ba : Option (String × String)) (m : Method) (path : String)
        (ps : List (String × Json)) (now : ℕ),
      (authenticate { keypair := some kp, basicauth := ba } (requestOpts m path ps now)).auth
          = none ∧
      (authenticate { keypair := some kp, basicauth := ba } (requestOpts m path ps now)).headers
          = [("x-pubkey", kp.pub),
             ("x-signature", kp.signFn (authContract (requestOpts m path ps now)))]) ∧
    (∀ (ba : String × String) (m : Method) (path : String) (ps : List (String × Json))
        (now : ℕ),
      (authenticate { keypair := none, basicauth := some ba } (requestOpts m path ps now)).headers
          = [] ∧
      (authenticate { keypair := none, basicauth := some ba } (requestOpts m path ps now)).auth
          = some (ba.1, sha256Hex ba.2)) ∧
    (∀ (m : Method) (path : String) (ps : List (String × Json)) (now : ℕ),
      authenticate { keypair := none, basicauth := none } (requestOpts m path ps now)
          = requestOpts m path ps now ∧
      (requestOpts m path ps now).headers = [] ∧
      (requestOpts m path ps now).auth = none) ∧
    (∀ (pubOf : String → String) (signWith : String → String → String) (pk : String)
        (em pw : Option String) (m : Method) (path : String) (ps : List (String × Json))
        (now : ℕ), pk ≠ "" →
      (mdAuthenticate pubOf signWith { privkey := some pk, email := em, password := pw }
          (requestOpts m path ps now)).auth = none ∧
      (mdAuthenticate pubOf signWith { privkey := some pk, email := em, password := pw }
          (requestOpts m path ps now)).headers
        = [("x-pubkey", pubOf pk),
           ("x-signature", signWith pk (authContract (requestOpts m path ps now)))]) ∧
    (∀ (pubOf : String → String) (signWith : String → String → String) (em pw : String)
        (m : Method) (path : String) (ps : List (String × Json)) (now : ℕ),
        em ≠ "" → pw ≠ "" →
      (mdAuthenticate pubOf signWith { privkey := none, email := some em, password := some pw }
          (requestOpts m path ps now)).headers = [] ∧
      (mdAuthenticate pubOf signWith { privkey := none, email := some em, password := some pw }
          (requestOpts m path ps now)).auth = some (em, sha256Hex pw)) ∧
    (∀ (pubOf : String → String) (signWith : String → String → String) (m : Method)
        (path : String) (ps : List (String × Json)) (now : ℕ),
      mdAuthenticate pubOf signWith { privkey := none, email := none, password := none }
          (requestOpts m path ps now) = requestOpts m path ps now) := by
  have hreq : ∀ (m : Method) (path : String) (ps : List (String × Json)) (now : ℕ),
      (requestOpts m path ps now).headers = [] ∧ (requestOpts m path ps now).auth = none := by
    intro m path ps now
    unfold requestOpts
    split <;> simp
  refine ⟨?_, ?_, ?_, ?_, ?_, ?_⟩
  · intro kp ba m path ps now
    obtain ⟨h1, h2⟩ := hreq m path ps now
    constructor
    · simp [authenticate, h2]
    · simp [authenticate, h1, setKV]
  · intro ba m path ps now
    obtain ⟨h1, _⟩ := hreq m path ps now
    exact ⟨by simp [authenticate, h1], by simp [authenticate]⟩
  · intro m path ps now
    exact ⟨rfl, hreq m path ps now⟩
  · intro pubOf signWith pk em pw m path ps now hpk
    obtain ⟨h1, h2⟩ := hreq m path ps now
    constructor
    · simp [mdAuthenticate, truthyS, hpk, h2]
    · simp [mdAuthenticate, truthyS, hpk, h1, setKV]
  · intro pubOf signWith em pw m path ps now hem hpw
    obtain ⟨h1, _⟩ := hreq m path ps now
    exact ⟨by simp [mdAuthenticate, truthyS, hem, hpw, h1],
      by simp [mdAuthenticate, truthyS, hem, hpw]⟩
  · intro pubOf signWith m path ps now
    simp [mdAuthenticate, truthyS]

/-- C3 witness: the hypotheses of the index-client branches are satisfiable
at concrete credentials. -/
theorem auth_branch_exclusivity_witness :
    ("k" : String) ≠ "" ∧ ("e" : String) ≠ "" ∧ ("p" : String) ≠ "" ∧
    (mdAuthenticate (fun _ => "PUB") (fun _ _ => "SIG")
        { privkey := some "k", email := some "e", password := some "p" }
        (requestOpts .GET "/" [] 0)).auth = none ∧
    (mdAuthenticate (fun _ => "PUB") (fun _ _ => "SIG")
        { privkey := none, email := some "e", password := some "p" }
        (requestOpts .GET "/" [] 0)).auth = some ("e", sha256Hex "p") := by
  refine ⟨by decide, by decide, by decide, ?_, ?_⟩
  · exact (auth_branch_exclusivity.2.2.2.1 (fun _ => "PUB") (fun _ _ => "SIG") "k"
      (some "e") (some "p") .GET "/" [] 0 (by decide)).1
  · exact (auth_branch_exclusivity.2.2.2.2.1 (fun _ => "PUB") (fun _ _ => "SIG") "e" "p"
      .GET "/" [] 0 (by decide) (by decide)).2

/-! ### Claim C7 -/

/-- C7: a request from a client configured with a password credential sets
HTTP basic-auth with the email as user and the hex SHA-256 digest of the
password as the password; the plaintext password appears nowhere else in
the built request (headers, query and body are untouched by
authentication). -/
theorem basic_auth_password_hashed :
    (∀ (e pw : String) (m : Method) (path : String) (ps : List (String × Json)) (now : ℕ),
      (authenticate { keypair := none, basicauth := some (e, pw) }
          (requestOpts m path ps now)).auth
        = some (e, bytesToHex (sha256 (utf8Encode pw))) ∧
      (authenticate { keypair := none, basicauth := some (e, pw) }
          (requestOpts m path ps now)).headers = [] ∧
      (authenticate { keypair := none, basicauth := some (e, pw) }
          (requestOpts m path ps now)).qs = (requestOpts m path ps now).qs ∧
      (authenticate { keypair := none, basicauth := some (e, pw) }
          (requestOpts m path ps now)).jsonBody = (requestOpts m path ps now).jsonBody) ∧
    (∀ (pubOf : String → String) (signWith : String → String → String) (e pw : String)
        (m : Method) (path : String) (ps : List (String × Json)) (now : ℕ),
        e ≠ "" → pw ≠ "" →
      (mdAuthenticate pubOf signWith { privkey := none, email := some e, password := some pw }
          (requestOpts m path ps now)).auth
        = some (e, bytesToHex (sha256 (utf8Encode pw))) ∧
      (mdAuthenticate pubOf signWith { privkey := none, email := some e, password := some pw }
          (requestOpts m path ps now)).headers = []) := by
  have hreq : ∀ (m : Method) (path : String) (ps : List (String × Json)) (now : ℕ),
      (requestOpts m path ps now).headers = [] := by
    intro m path ps now
    unfold requestOpts
    split <;> simp
  constructor
  · intro e pw m path ps now
    exact ⟨by simp [authenticate, sha256Hex], by simp [authenticate, hreq], rfl, rfl⟩
  · intro pubOf signWith e pw m path ps now he hpw
    exact ⟨by simp [mdAuthenticate, truthyS, he, hpw, sha256Hex],
      by simp [mdAuthenticate, truthyS, he, hpw, hreq]⟩

/-- C7 witness: the index-client hypotheses hold at concrete credentials. -/
theorem basic_auth_password_hashed_witness :
    ("e@x" : String) ≠ "" ∧ ("pw" : String) ≠ "" ∧
    (mdAuthenticate (fun _ => "PUB") (fun _ _ => "SIG")
        { privkey := none, email := some "e@x", password := some "pw" }
        (requestOpts .POST "/users" [] 0)).auth
      = some ("e@x", bytesToHex (sha256 (utf8Encode "pw"))) := by
  refine ⟨by decide, by decide, ?_⟩
  exact (basic_auth_password_hashed.2 (fun _ => "PUB") (fun _ _ => "SIG") "e@x" "pw"
    .POST "/users" [] 0 (by decide) (by decide)).1

/-! ### Claim C2 -/

/-- Formalization of C2's acceptance predicate, in the spec's own words: a
response fails exactly when the status is not 2xx and not 304. -/
def specShouldReject (st : ℕ) : Prop := ¬ (200 ≤ st ∧ st ≤ 299 ∨ st = 304)

/-- C2 counterexample: the claim's predicate disagrees with both `_request`
handlers at concrete statuses — `index.js` rejects status 201 although it is
2xx, and `lib/client.js` resolves status 301 although it is neither 2xx nor
304. -/
theorem status_handling_counterexample :
    (mdHandle (.response 201 (.obj []))).isOk = false ∧ ¬ specShouldReject 201 ∧
    (libHandle (.response 301 (.obj []))).isOk = true ∧ specShouldReject 301 := by
  refine ⟨rfl, ?_, rfl, ?_⟩ <;> simp [specShouldReject]

/-- C2 (amended): `lib/client.js`'s `_request` rejects exactly the statuses
at or above 400, `index.js`'s `_request` rejects exactly the statuses other
than 200 and 304; a transport error rejects with it; an application failure
rejects with an `Error` whose message is the body's truthy `error` field
when present; otherwise the parsed JSON body is resolved. -/
theorem status_handling_amended (st : ℕ) (body : Json) (e msg : String) :
    libHandle (.failure e) = .error e ∧
    mdHandle (.failure e) = .error e ∧
    (400 ≤ st → libHandle (.response st body) = .error (errorMessage body)) ∧
    (st < 400 → libHandle (.response st body) = .ok body) ∧
    (st ≠ 200 ∧ st ≠ 304 → mdHandle (.response st body) = .error (errorMessage body)) ∧
    (st = 200 ∨ st = 304 → mdHandle (.response st body) = .ok body) ∧
    (getField body "error" = some (.str msg) → msg ≠ "" → errorMessage body = msg) := by
  refine ⟨rfl, rfl, ?_, ?_, ?_, ?_, ?_⟩
  · intro h
    simp [libHandle, h]
  · intro h
    simp [libHandle, Nat.not_le.mpr h]
  · intro h
    simp [mdHandle, h]
  · intro h
    rcases h with h | h <;> simp [mdHandle, h]
  · intro hf hm
    simp [errorMessage, hf, jsTruthy, hm, jsToString]

/-- C2 witness: the amended characterization applies at a concrete failing
response carrying a server error message. -/
theorem status_handling_amended_witness :
    (404 : ℕ) ≠ 200 ∧ (404 : ℕ) ≠ 304 ∧
    getField (.obj [("error", .str "not found")]) "error" = some (.str "not found") ∧
    ("not found" : String) ≠ "" ∧
    mdHandle (.response 404 (.obj [("error", .str "not found")])) = .error "not found" := by
  refine ⟨by decide, by decide, rfl, by decide, ?_⟩
  have h := status_handling_amended 404 (.obj [("error", .str "not found")]) "" "not found"
  rw [h.2.2.2.2.1 ⟨by decide, by decide⟩, h.2.2.2.2.2.2 rfl (by decide)]

/-! ### KeyPair public key and node id (`kad-spartacus` keypair,
`src/unnamed/part_001`) -/

/-- The compressed public key hex of `KeyPair.prototype.getPublicKey`: a
prefix byte chosen by the parity of the last byte of the 32-byte big-endian
y-coordinate (3 when odd, 2 when even), followed by the 32-byte big-endian
x-coordinate, hex encoded. -/
def getPublicKey (x y : ℕ) : String :=
  let xbuf := natToBytesBE 32 x
  let ybuf := natToBytesBE 32 y
  let pubkey := if ybuf.getD (ybuf.length - 1) 0 % 2 = 1 then 3 :: xbuf else 2 :: xbuf
  bytesToHex pubkey

/-- The node id of `KeyPair.prototype.getNodeID`: decode the public key hex
back to bytes, SHA-256 it, RIPEMD-160 the digest, hex encode. -/
def getNodeID (x y : ℕ) : String :=
  bytesToHex (rmd160 (sha256 (nodeHexDecode (getPublicKey x y))))

theorem hexCharVal_hexDigit : ∀ n < 16, hexCharVal (hexDigit n) = some n := by decide

theorem nodeHexBytes_flatMap_byteToHex (bs : List ℕ) (h : ∀ b ∈ bs, b < 256) :
    nodeHexBytes (bs.flatMap byteToHex) = bs := by
  induction bs with
  | nil => rfl
  | cons b rest ih =>
    have hb : b < 256 := h b (List.mem_cons_self _ _)
    have h1 : b / 16 < 16 := Nat.div_lt_of_lt_mul hb
    have h2 : b % 16 < 16 := Nat.mod_lt _ (by norm_num)
    have hrest : nodeHexBytes (rest.flatMap byteToHex) = rest :=
      ih (fun x hx => h x (List.mem_cons_of_mem _ hx))
    simp only [List.flatMap_cons, byteToHex, List.cons_append, List.nil_append,
      nodeHexBytes, hexCharVal_hexDigit _ h1, hexCharVal_hexDigit _ h2, hrest]
    have hbv : b / 16 * 16 + b % 16 = b := by omega
    rw [hbv]
    simpa [List.flatMap] using hrest

/-- Node hex decoding inverts hex encoding on genuine byte lists. -/
theorem nodeHexDecode_bytesToHex (bs : List ℕ) (h : ∀ b ∈ bs, b < 256) :
    nodeHexDecode (bytesToHex bs) = bs := by
  simpa [nodeHexDecode, bytesToHex] using nodeHexBytes_flatMap_byteToHex bs h

theorem natToBytesBE_lt (len n : ℕ) : ∀ b ∈ natToBytesBE len n, b < 256 := by
  intro b hb
  simp only [natToBytesBE, List.mem_map] at hb
  obtain ⟨i, _, rfl⟩ := hb
  exact Nat.mod_lt _ (by norm_num)

/-! ### Claim C6 -/

/-- C6: `getNodeID` is the hex encoding of RIPEMD-160 of SHA-256 of the
compressed public key bytes — a prefix byte 2 or 3 (by y parity) followed by
the 32-byte big-endian x-coordinate — and, being a pure function of the key
coordinates, it returns the same value on repeated calls. -/
theorem node_id_hash160 (x y : ℕ) :
    getNodeID x y =
      bytesToHex (rmd160 (sha256 ((if y % 2 = 1 then 3 else 2) :: natToBytesBE 32 x))) ∧
    getNodeID x y = getNodeID x y := by
  refine ⟨?_, rfl⟩
  have hlen : (natToBytesBE 32 y).length = 32 := by simp [natToBytesBE]
  have hlast : (natToBytesBE 32 y).getD ((natToBytesBE 32 y).length - 1) 0 = y % 256 := by
    rw [hlen]
    simp [natToBytesBE, List.getD, List.getElem?_map]
  have hpar : y % 256 % 2 = y % 2 := Nat.mod_mod_of_dvd y (by norm_num)
  have hbytes : ∀ pre ∈ [(2 : ℕ), 3], ∀ b ∈ pre :: natToBytesBE 32 x, b < 256 := by
    intro pre hpre b hb
    rcases List.mem_cons.mp hb with rfl | hb
    · rcases List.mem_pair.mp hpre with rfl | rfl <;> norm_num
    · exact natToBytesBE_lt 32 x b hb
  rw [show getNodeID x y = bytesToHex (rmd160 (sha256 (nodeHexDecode (bytesToHex
    (if (natToBytesBE 32 y).getD ((natToBytesBE 32 y).length - 1) 0 % 2 = 1
      then 3 :: natToBytesBE 32 x else 2 :: natToBytesBE 32 x))))) from rfl]
  rw [hlast, hpar]
  by_cases hy : y % 2 = 1
  · simp only [hy, if_pos rfl, if_true]
    rw [nodeHexDecode_bytesToHex _ (hbytes 3 (by norm_num))]
  · simp only [hy, if_neg hy, if_false]
    rw [nodeHexDecode_bytesToHex _ (hbytes 2 (by norm_num))]

/-! ### Upload orchestration (`Client.prototype.storeFileInBucket`) -/

/-- Expected shard count: `Math.ceil(fs.statSync(file).size /
storj.FileDemuxer.DEFAULTS.shardSize)`. The JS float division is exact for
the power-of-two default shard size, so the exact ceiling models it; this
executable form is proved equal to the rational ceiling in
`numShards_eq_ceil`. -/
def numShards (size shardSize : ℕ) : ℕ := (size + shardSize - 1) / shardSize

theorem numShards_eq_ceil (size shardSize : ℕ) (h : 0 < shardSize) :
    numShards size shardSize = ⌈(size : ℚ) / shardSize⌉₊ := by
  have hc : (0 : ℚ) < shardSize := by exact_mod_cast h
  apply le_antisymm
  · have hle : (size : ℚ) / shardSize ≤ ⌈(size : ℚ) / shardSize⌉₊ := Nat.le_ceil _
    have hs : size ≤ shardSize * ⌈(size : ℚ) / shardSize⌉₊ := by
      have := (div_le_iff₀ hc).mp hle
      exact_mod_cast this.trans_eq (mul_comm _ _)
    have hstep : (size + shardSize - 1) / shardSize ≤
        (shardSize * ⌈(size : ℚ) / shardSize⌉₊ + shardSize - 1) / shardSize :=
      Nat.div_le_div_right (by omega)
    have heq : (shardSize * ⌈(size : ℚ) / shardSize⌉₊ + shardSize - 1) / shardSize
        = ⌈(size : ℚ) / shardSize⌉₊ := by
      rw [show shardSize * ⌈(size : ℚ) / shardSize⌉₊ + shardSize - 1
          = (shardSize - 1) + shardSize * ⌈(size : ℚ) / shardSize⌉₊ by omega,
        Nat.add_mul_div_left _ _ h, Nat.div_eq_of_lt (by omega)]
      omega
    exact hstep.trans heq.le
  · rw [Nat.ceil_le, div_le_iff₀ hc]
    have hge : size ≤ shardSize * numShards size shardSize := by
      have hmod := Nat.div_add_mod (size + shardSize - 1) shardSize
      have hlt : (size + shardSize - 1) % shardSize < shardSize := Nat.mod_lt _ h
      unfold numShards
      omega
    exact_mod_cast hge.trans_eq (mul_comm _ _)

/-- Events the event loop delivers to the closures inside
`storeFileInBucket`, in arrival order: a staging request
(`addShardToFileStagingFrame`) resolving or rejecting, a data-channel push
finishing for a shard, and the file-registration `POST` response. -/
inductive UploadEv where
  | stagingOk (index : ℕ)
  | stagingFail (e : String)
  | pushDone (index : ℕ)
  | registerOk (body : Json)
  | registerFail (e : String)

/-- State of one `storeFileInBucket` promise: the `completed` counter,
whether the registration `POST /buckets/:id/files` with the frame id has
been issued, and the settled outcome if any (a promise settles once). -/
structure UploadState where
  completed : ℕ := 0
  registerIssued : Bool := false
  outcome : Option (Except String Json) := none

/-- Settle the promise if it is still pending. -/
def settle (st : UploadState) (o : Except String Json) : UploadState :=
  match st.outcome with
  | some _ => st
  | none => { st with outcome := some o }

/-- One event handled by the closures of `storeFileInBucket`: a staging
rejection calls `reject`; a push `finish` increments `completed` and, when
it reaches the expected count, issues the registration request; the
registration response resolves or rejects. Shards in flight are never
cancelled, so the counter keeps advancing after a rejection. -/
def uploadStep (n : ℕ) (st : UploadState) : UploadEv → UploadState
  | .stagingOk _ => st
  | .stagingFail e => settle st (.error e)
  | .pushDone _ =>
    let c := st.completed + 1
    { st with completed := c, registerIssued := st.registerIssued || decide (c = n) }
  | .registerOk b => if st.registerIssued then settle st (.ok b) else st
  | .registerFail e => if st.registerIssued then settle st (.error e) else st

/-- Run the upload orchestration over a trace of events. -/
def runUpload (n : ℕ) (evs : List UploadEv) : UploadState :=
  evs.foldl (uploadStep n) {}

/-- Number of acknowledged shard pushes in a trace. -/
def pushCount (evs : List UploadEv) : ℕ :=
  (evs.filter fun ev => match ev with | .pushDone _ => true | _ => false).length

/-- Registration responses can only arrive after the request was issued:
well-formedness of a trace relative to the evolving state. -/
def wfFrom (n : ℕ) : UploadState → List UploadEv → Bool
  | _, [] => true
  | st, ev :: rest =>
    (match ev with
      | .registerOk _ => st.registerIssued
      | .registerFail _ => st.registerIssued
      | _ => true) &&
    wfFrom n (uploadStep n st ev) rest

/-- Settling events: a staging rejection or a registration response. -/
def isSettling : UploadEv → Bool
  | .stagingFail _ => true
  | .registerOk _ => true
  | .registerFail _ => true
  | _ => false

/-- The value a settling event settles the promise with. -/
def settleValue : UploadEv → Except String Json
  | .registerOk b => .ok b
  | .stagingFail e => .error e
  | .registerFail e => .error e
  | _ => .error ""

theorem settle_fields (st : UploadState) (o : Except String Json) :
    (settle st o).completed = st.completed ∧
    (settle st o).registerIssued = st.registerIssued := by
  cases h : st.outcome <;> simp [settle, h]

theorem uploadStep_outcome_some (n : ℕ) (st : UploadState) (o : Except String Json)
    (evs : List UploadEv) (h : st.outcome = some o) :
    (evs.foldl (uploadStep n) st).outcome = some o := by
  induction evs generalizing st with
  | nil => exact h
  | cons ev rest ih =>
    rw [List.foldl_cons]
    refine ih _ ?_
    rcases ev with i | e | i | b | e
    · exact h
    · simp [uploadStep, settle, h]
    · exact h
    · by_cases hi : st.registerIssued <;> simp [uploadStep, hi, settle, h]
    · by_cases hi : st.registerIssued <;> simp [uploadStep, hi, settle, h]

theorem uploadStep_fields_nonpush (n : ℕ) (st : UploadState) (ev : UploadEv)
    (h : (match ev with | .pushDone _ => false | _ => true) = true) :
    (uploadStep n st ev).completed = st.completed ∧
    (uploadStep n st ev).registerIssued = st.registerIssued := by
  rcases ev with i | e | i | b | e
  · exact ⟨rfl, rfl⟩
  · exact settle_fields st (.error e)
  · simp at h
  · by_cases hi : st.registerIssued <;>
      simp [uploadStep, hi, settle_fields]
  · by_cases hi : st.registerIssued <;>
      simp [uploadStep, hi, settle_fields]

theorem pushCount_cons_nonpush (ev : UploadEv) (rest : List UploadEv)
    (h : (match ev with | .pushDone _ => false | _ => true) = true) :
    pushCount (ev :: rest) = pushCount rest := by
  rcases ev with i | e | i | b | e <;> simp_all [pushCount]

theorem runUpload_completed (n : ℕ) (evs : List UploadEv) (st : UploadState) :
    (evs.foldl (uploadStep n) st).completed = st.completed + pushCount evs ∧
    ((evs.foldl (uploadStep n) st).registerIssued = true ↔
      st.registerIssued = true ∨
        (st.completed < n ∧ n ≤ st.completed + pushCount evs)) := by
  induction evs generalizing st with
  | nil => simp [pushCount]
  | cons ev rest ih =>
    rw [List.foldl_cons]
    obtain ⟨h1, h2⟩ := ih (uploadStep n st ev)
    rcases ev with i | e | i | b | e
    case pushDone =>
      have e1 : (uploadStep n st (.pushDone i)).completed = st.completed + 1 := rfl
      have e2 : (uploadStep n st (.pushDone i)).registerIssued
          = (st.registerIssued || decide (st.completed + 1 = n)) := rfl
      have hpc : pushCount (UploadEv.pushDone i :: rest) = pushCount rest + 1 := by
        simp [pushCount]
      refine ⟨by rw [h1, e1, hpc]; omega, ?_⟩
      rw [h2, e1, e2, hpc]
      simp only [Bool.or_eq_true, decide_eq_true_eq]
      constructor
      · rintro ((h | h) | ⟨ha, hb⟩)
        · exact Or.inl h
        · exact Or.inr ⟨by omega, by omega⟩
        · exact Or.inr ⟨by omega, by omega⟩
      · rintro (h | ⟨ha, hb⟩)
        · exact Or.inl (Or.inl h)
        · by_cases hn : st.completed + 1 = n
          · exact Or.inl (Or.inr hn)
          · exact Or.inr ⟨by omega, by omega⟩
    all_goals
      refine ⟨?_, ?_⟩
      · rw [h1, (uploadStep_fields_nonpush n st _ (by rfl)).1,
          pushCount_cons_nonpush _ rest (by rfl)]
      · rw [h2, (uploadStep_fields_nonpush n st _ (by rfl)).1,
          (uploadStep_fields_nonpush n st _ (by rfl)).2,
          pushCount_cons_nonpush _ rest (by rfl)]

theorem runUpload_outcome (n : ℕ) (evs : List UploadEv) (st : UploadState)
    (hwf : wfFrom n st evs = true) (h0 : st.outcome = none) :
    (evs.foldl (uploadStep n) st).outcome =
      ((evs.filter isSettling).head?).map settleValue := by
  induction evs generalizing st with
  | nil => simpa using h0
  | cons ev rest ih =>
    rw [List.foldl_cons]
    rcases ev with i | e | i | b | e
    · simp only [wfFrom, Bool.true_and] at hwf
      simpa [uploadStep, isSettling] using ih _ hwf h0
    · simp only [wfFrom, Bool.true_and] at hwf
      have hs : (uploadStep n st (.stagingFail e)).outcome = some (.error e) := by
        simp [uploadStep, settle, h0]
      rw [uploadStep_outcome_some n _ _ rest hs]
      simp [isSettling, settleValue]
    · simp only [wfFrom, Bool.true_and] at hwf
      refine (ih _ hwf h0).trans ?_
      simp [isSettling]
    · simp only [wfFrom, Bool.and_eq_true] at hwf
      obtain ⟨hreg, hrest⟩ := hwf
      have hs : (uploadStep n st (.registerOk b)).outcome = some (.ok b) := by
        simp [uploadStep, hreg, settle, h0]
      rw [uploadStep_outcome_some n _ _ rest hs]
      simp [isSettling, settleValue]
    · simp only [wfFrom, Bool.and_eq_true] at hwf
      obtain ⟨hreg, hrest⟩ := hwf
      have hs : (uploadStep n st (.registerFail e)).outcome = some (.error e) := by
        simp [uploadStep, hreg, settle, h0]
      rw [uploadStep_outcome_some n _ _ rest hs]
      simp [isSettling, settleValue]

theorem runUpload_resolved_needs_all (n : ℕ) (evs : List UploadEv) (b : Json) :
    ∀ st, wfFrom n st evs = true → st.outcome = none →
      (evs.foldl (uploadStep n) st).outcome = some (.ok b) →
      st.registerIssued = true ∨ (st.completed < n ∧ n ≤ st.completed + pushCount evs) := by
  induction evs with
  | nil =>
    intro st _ h0 hres
    simp [h0] at hres
  | cons ev rest ih =>
    intro st hwf h0 hres
    rw [List.foldl_cons] at hres
    rcases ev with i | e | i | b' | e
    · simp only [wfFrom, Bool.true_and] at hwf
      rw [pushCount_cons_nonpush _ rest (by rfl)]
      exact ih st hwf h0 hres
    · simp only [wfFrom, Bool.true_and] at hwf
      exfalso
      have hs : (uploadStep n st (.stagingFail e)).outcome = some (.error e) := by
        simp [uploadStep, settle, h0]
      rw [uploadStep_outcome_some n _ _ rest hs] at hres
      exact Except.noConfusion (Option.some.inj hres)
    · simp only [wfFrom, Bool.true_and] at hwf
      have hrest := hwf
      have e1 : (uploadStep n st (.pushDone i)).completed = st.completed + 1 := rfl
      have e2 : (uploadStep n st (.pushDone i)).registerIssued
          = (st.registerIssued || decide (st.completed + 1 = n)) := rfl
      have e3 : (uploadStep n st (.pushDone i)).outcome = st.outcome := rfl
      have hpc : pushCount (UploadEv.pushDone i :: rest) = pushCount rest + 1 := by
        simp [pushCount]
      have hrec := ih _ hrest (e3.trans h0) hres
      rw [e1, e2] at hrec
      simp only [Bool.or_eq_true, decide_eq_true_eq] at hrec
      rw [hpc]
      rcases hrec with (h | h) | ⟨h1, h2⟩
      · exact Or.inl h
      · exact Or.inr ⟨by omega, by omega⟩
      · exact Or.inr ⟨by omega, by omega⟩
    · simp only [wfFrom, Bool.and_eq_true] at hwf
      exact Or.inl hwf.1
    · simp only [wfFrom, Bool.and_eq_true] at hwf
      exact Or.inl hwf.1

/-! ### Claim C5 -/

/-- C5: in `storeFileInBucket` the file-registration request is issued
exactly upon the `numShards`-th acknowledged shard push (`numShards` the
ceiling of the file size over the default shard size); on a well-formed
trace the promise resolves only if the registration went out — hence only
after all expected shards were acknowledged — and a staging failure
arriving before any settling event rejects the whole promise with it. -/
theorem store_file_orchestration (size shardSize : ℕ) (evs : List UploadEv)
    (b : Json) (e : String) :
    (0 < shardSize → numShards size shardSize = ⌈(size : ℚ) / shardSize⌉₊) ∧
    ((runUpload (numShards size shardSize) evs).registerIssued = true ↔
      1 ≤ numShards size shardSize ∧ numShards size shardSize ≤ pushCount evs) ∧
    (wfFrom (numShards size shardSize) {} evs = true →
      (runUpload (numShards size shardSize) evs).outcome = some (.ok b) →
      1 ≤ numShards size shardSize ∧ numShards size shardSize ≤ pushCount evs) ∧
    (wfFrom (numShards size shardSize) {} evs = true →
      (evs.filter isSettling).head? = some (.stagingFail e) →
      (runUpload (numShards size shardSize) evs).outcome = some (.error e)) := by
  refine ⟨numShards_eq_ceil size shardSize, ?_, ?_, ?_⟩
  · have h2 := (runUpload_completed (numShards size shardSize) evs {}).2
    unfold runUpload
    rw [h2]
    have hi : (({} : UploadState)).registerIssued = false := rfl
    have hc : (({} : UploadState)).completed = 0 := rfl
    rw [hi, hc]
    simp only [Bool.false_eq_true, false_or, Nat.zero_add]
    omega
  · intro hwf hres
    have h := runUpload_resolved_needs_all (numShards size shardSize) evs b {} hwf rfl hres
    rcases h with h | ⟨h1, h2⟩
    · exact absurd h (by simp [show (({} : UploadState)).registerIssued = false from rfl])
    · have h1' : 0 < numShards size shardSize := h1
      have h2' : numShards size shardSize ≤ 0 + pushCount evs := h2
      exact ⟨by omega, by omega⟩
  · intro hwf hhead
    have hout := runUpload_outcome (numShards size shardSize) evs {} hwf rfl
    unfold runUpload
    rw [hout, hhead]
    rfl

/-- C5 witness: a two-shard upload (size 3, shard size 2) whose staging
succeeds, both pushes complete, and the registration response arrives after
the request went out. -/
theorem store_file_orchestration_witness :
    (0 : ℕ) < 2 ∧
    wfFrom (numShards 3 2) {}
      [.stagingOk 0, .stagingOk 1, .pushDone 0, .pushDone 1, .registerOk (.num 1)] = true ∧
    (runUpload (numShards 3 2)
      [.stagingOk 0, .stagingOk 1, .pushDone 0, .pushDone 1, .registerOk (.num 1)]).outcome
      = some (.ok (.num 1)) ∧
    1 ≤ numShards 3 2 ∧ numShards 3 2 ≤ pushCount
      [.stagingOk 0, .stagingOk 1, .pushDone 0, .pushDone 1, .registerOk (.num 1)] := by
  have hwf : wfFrom (numShards 3 2) {}
      [.stagingOk 0, .stagingOk 1, .pushDone 0, .pushDone 1, .registerOk (.num 1)] = true := by
    decide
  have hout : (runUpload (numShards 3 2)
      [.stagingOk 0, .stagingOk 1, .pushDone 0, .pushDone 1, .registerOk (.num 1)]).outcome
      = some (.ok (.num 1)) := rfl
  exact ⟨by decide, hwf, hout,
    (store_file_orchestration 3 2
      [.stagingOk 0, .stagingOk 1, .pushDone 0, .pushDone 1, .registerOk (.num 1)]
      (.num 1) "").2.2.1 hwf hout⟩

/-! ### Shard resolution (`MetaDiskClient.prototype.resolveFileFromPointers`) -/

/-- Outcome of one shard POST as its `request` callback sees it: a transport
error, or a raw body whose `JSON.parse` result is `some` parsed value or
`none` when parsing throws. -/
inductive ShardResp where
  | transportErr (e : String)
  | body (parsed : Option Json)

/-- The shard extraction `new Buffer(JSON.parse(body).result.data_shard,
'hex')` inside its try/catch: a parse throw or a property access on
`undefined`/`null` is caught and becomes an error; a string decodes with
node's truncating hex semantics; a number makes `new Buffer(n)` allocate `n`
bytes (uninitialized, modelled as zeros); an array is copied byte-wise with
non-numbers coerced to 0; everything else throws. -/
def extractShard : Option Json → Except String (List ℕ)
  | none => .error "SyntaxError"
  | some j =>
    match getField j "result" with
    | none => .error "TypeError"
    | some r =>
      match getField r "data_shard" with
      | some (.str s) => .ok (nodeHexDecode s)
      | some (.num k) => .ok (List.replicate k 0)
      | some (.arr items) =>
        .ok (items.map (fun it => match it with | .num k => k % 256 | _ => 0))
      | _ => .error "TypeError"

/-- Result of the `async.map` iteratee for pointer `i`. -/
def taskResult (resps : ℕ → ShardResp) (i : ℕ) : Except String (List ℕ) :=
  match resps i with
  | .transportErr e => .error e
  | .body p => extractShard p

/-- The error `async.map` finishes with: the first failing task in arrival
order `σ`. -/
def firstError (σ : List ℕ) (resps : ℕ → ShardResp) : Option String :=
  σ.findSome? (fun i => match taskResult resps i with | .error e => some e | .ok _ => none)

/-- The promise of `resolveFileFromPointers` over `count` pointers whose
responses arrive in order `σ`: `async.map` rejects with the first arrived
error, else resolves with `Buffer.concat` of the shards in pointer index
order. -/
def resolveFilePointers (count : ℕ) (σ : List ℕ) (resps : ℕ → ShardResp) :
    Except String (List ℕ) :=
  match firstError σ resps with
  | some e => .error e
  | none => .ok ((List.range count).flatMap (fun i => (taskResult resps i).toOption.getD []))

/-! ### Claim C10 -/

/-- C10 counterexample: a single pointer whose response is valid JSON with
`data_shard` equal to `"zz"` — a body that cannot be hex-decoded (strict
decoding fails) — yet the promise resolves (with the silently truncated,
empty, shard) instead of rejecting: node's `Buffer(string, 'hex')` truncates
at the first invalid character and never throws. -/
theorem resolve_pointers_counterexample :
    resolveFilePointers 1 [0]
        (fun _ => .body (some (.obj [("result", .obj [("data_shard", .str "zz")])])))
      = .ok [] ∧
    hexToBytes "zz" = none := by
  exact ⟨rfl, rfl⟩

/-- C10 (amended): when every pointer's shard request succeeds and decodes,
the promise resolves with the shards concatenated in pointer index order,
for every arrival order of the responses; when some task fails (transport
error, JSON parse throw, or a missing/undecodable `data_shard` whose access
throws), the promise rejects with the error of the first failure in arrival
order. Invalid hex characters in a string `data_shard` are silently
truncated, not a rejection. -/
theorem resolve_pointers_amended (count : ℕ) (σ : List ℕ) (resps : ℕ → ShardResp)
    (shards : ℕ → List ℕ) (e : String) :
    ((∀ i < count, taskResult resps i = .ok (shards i)) → σ.Perm (List.range count) →
      resolveFilePointers count σ resps = .ok ((List.range count).flatMap shards)) ∧
    (firstError σ resps = some e →
      resolveFilePointers count σ resps = .error e) := by
  constructor
  · intro hok hperm
    have hnone : firstError σ resps = none := by
      rw [firstError, List.findSome?_eq_none_iff]
      intro i hi
      have hmem : i ∈ List.range count := hperm.mem_iff.mp hi
      rw [hok i (List.mem_range.mp hmem)]
    rw [resolveFilePointers, hnone]
    show (Except.ok ((List.range count).flatMap fun i => (taskResult resps i).toOption.getD [])
        : Except String (List ℕ)) = Except.ok ((List.range count).flatMap shards)
    congr 1
    refine List.flatMap_congr ?_  -- pointwise equality of the mapped shards
    intro i hi
    rw [hok i (List.mem_range.mp hi)]
    rfl
  · intro he
    rw [resolveFilePointers, he]

/-- C10 witness: two pointers whose responses arrive in reversed order still
concatenate in pointer index order. -/
theorem resolve_pointers_amended_witness :
    (∀ i < 2, taskResult (fun j => if j = 0
        then .body (some (.obj [("result", .obj [("data_shard", .str "aa")])]))
        else .body (some (.obj [("result", .obj [("data_shard", .str "bb")])]))) i
      = .ok (if i = 0 then [170] else [187])) ∧
    ([1, 0] : List ℕ).Perm (List.range 2) ∧
    resolveFilePointers 2 [1, 0] (fun j => if j = 0
        then .body (some (.obj [("result", .obj [("data_shard", .str "aa")])]))
        else .body (some (.obj [("result", .obj [("data_shard", .str "bb")])])))
      = .ok [170, 187] := by
  have h1 : ∀ i < 2, taskResult (fun j => if j = 0
      then ShardResp.body (some (.obj [("result", .obj [("data_shard", .str "aa")])]))
      else ShardResp.body (some (.obj [("result", .obj [("data_shard", .str "bb")])]))) i
      = .ok (if i = 0 then [170] else [187]) := by
    intro i hi
    interval_cases i <;> rfl
  have h2 : ([1, 0] : List ℕ).Perm (List.range 2) := by
    decide
  have h3 := (resolve_pointers_amended 2 [1, 0] (fun j => if j = 0
      then .body (some (.obj [("result", .obj [("data_shard", .str "aa")])]))
      else .body (some (.obj [("result", .obj [("data_shard", .str "bb")])])))
      (fun i => if i = 0 then [170] else [187]) "").1 h1 h2
  exact ⟨h1, h2, by rw [h3]; rfl⟩

/-! ### ECDSA over a short Weierstrass curve (the `elliptic` engine behind
`kad-spartacus`, instantiated by the library at secp256k1; embedded
generically over the curve parameters `p`, `a`, `b`, `G`, `n`) -/

/-- The modular inverse as elliptic-curve code computes it, in executable
form: `x ^ (m - 2)` in `ZMod m`, which equals the field inverse for prime
`m` on nonzero elements (`zinv_eq_inv`). -/
def zinv (m : ℕ) (x : ZMod m) : ZMod m := x ^ (m - 2)

/-- An executable affine point: `none` is the point at infinity. -/
def EPoint (m : ℕ) : Type := Option (ZMod m × ZMod m)

/-- Point addition on `y² = x³ + ax + b` with the standard chord-tangent
formulas, as the bignum curve code computes it. -/
def eAdd (m : ℕ) (a : ZMod m) : EPoint m → EPoint m → EPoint m
  | none, q => q
  | some pt, none => some pt
  | some (x₁, y₁), some (x₂, y₂) =>
    if x₁ = x₂ then
      if y₁ = -y₂ then none
      else
        let l := (3 * x₁ ^ 2 + a) * zinv m (2 * y₁)
        let x₃ := l ^ 2 - x₁ - x₂
        some (x₃, l * (x₁ - x₃) - y₁)
    else
      let l := (y₁ - y₂) * zinv m (x₁ - x₂)
      let x₃ := l ^ 2 - x₁ - x₂
      some (x₃, l * (x₁ - x₃) - y₁)

/-- Scalar multiplication by repeated addition. -/
def eSmul (m : ℕ) (a : ZMod m) : ℕ → EPoint m → EPoint m
  | 0, _ => none
  | k + 1, pt => eAdd m a pt (eSmul m a k pt)

/-- One attempt of elliptic's `EC.prototype.sign` with nonce `k`: reject a
nonce outside `[2, n - 2]`, compute `kG`, fail (redraw) on the point at
infinity, `r = 0` or `s = 0`, and otherwise return
`(r, s) = (x(kG) mod n, k⁻¹ (r d + z) mod n)`. -/
def ecSign (p : ℕ) (a : ZMod p) (g : EPoint p) (n : ℕ) (d k z : ZMod n) :
    Option (ZMod n × ZMod n) :=
  if k.val ≤ 1 ∨ n - 1 ≤ k.val then none
  else
    match eSmul p a k.val g with
    | none => none
    | some (x, _) =>
      let r : ZMod n := (x.val : ZMod n)
      if r = 0 then none
      else
        let s := zinv n k * (r * d + z)
        if s = 0 then none else some (r, s)

/-- Elliptic's `EC.prototype.verify` on an in-range signature: reject `r` or
`s` outside `[1, n - 1]`, compute `u₁G + u₂Q` with `u₁ = s⁻¹ z` and
`u₂ = s⁻¹ r`, fail on the point at infinity, and compare its `x` modulo `n`
with `r`. -/
def ecVerify (p : ℕ) (a : ZMod p) (g : EPoint p) (n : ℕ) (q : EPoint p) (z : ZMod n)
    (sig : ZMod n × ZMod n) : Bool :=
  if sig.1 = 0 then false
  else if sig.2 = 0 then false
  else
    let sinv := zinv n sig.2
    let u₁ := sinv * z
    let u₂ := sinv * sig.1
    match eAdd p a (eSmul p a u₁.val g) (eSmul p a u₂.val q) with
    | none => false
    | some (x, _) => decide ((x.val : ZMod n) = sig.1)

/-- The signature range checks of `verify` on the raw decoded integers:
`r`/`s` below 1 or at least `n` return `false` before any curve work. -/
def ecVerifyNat (p : ℕ) (a : ZMod p) (g : EPoint p) (n : ℕ) (q : EPoint p) (z : ZMod n)
    (rN sN : ℕ) : Bool :=
  if rN = 0 ∨ n ≤ rN then false
  else if sN = 0 ∨ n ≤ sN then false
  else ecVerify p a g n q z ((rN : ZMod n), (sN : ZMod n))

/-- The short Weierstrass curve `y² = x³ + ax + b` as a Mathlib curve. -/
def shortW {R : Type} [CommRing R] (a b : R) : WeierstrassCurve.Affine R :=
  { a₁ := 0, a₂ := 0, a₃ := 0, a₄ := a, a₆ := b }

/-- Correspondence between executable points and Mathlib's nonsingular
points on the same curve. -/
inductive Represents {F : Type} [Field F] (W : WeierstrassCurve.Affine F) :
    Option (F × F) → W.Point → Prop where
  | zero : Represents W none 0
  | mk {x y : F} (h : W.Nonsingular x y) :
      Represents W (some (x, y)) (WeierstrassCurve.Affine.Point.some h)

theorem zinv_eq_inv {p : ℕ} [Fact (Nat.Prime p)] {x : ZMod p} (hx : x ≠ 0) :
    zinv p x = x⁻¹ := by
  have h2 : 2 ≤ p := (Fact.out : Nat.Prime p).two_le
  have h1 : x * zinv p x = 1 := by
    rw [zinv, ← pow_succ']
    rw [show p - 2 + 1 = p - 1 by omega]
    exact ZMod.pow_card_sub_one_eq_one hx
  exact (inv_eq_of_mul_eq_one_right h1).symm

theorem shortW_negY {F : Type} [Field F] (a b x y : F) :
    (shortW a b).negY x y = -y := by
  simp [shortW, WeierstrassCurve.Affine.negY]

theorem rep_some_of_eq {F : Type} [Field F] {W : WeierstrassCurve.Affine F}
    {x y x' y' : F} (h : W.Nonsingular x y) (hx : x = x') (hy : y = y') :
    Represents W (some (x', y')) (WeierstrassCurve.Affine.Point.some h) := by
  subst hx
  subst hy
  exact .mk h

theorem rep_some_inv {F : Type} [Field F] {W : WeierstrassCurve.Affine F}
    {E : Option (F × F)} {P' : W.Point} (hr : Represents W E P') :
    ∀ {x y : F} (h : W.Nonsingular x y),
      P' = WeierstrassCurve.Affine.Point.some h → E = some (x, y) := by
  cases hr with
  | zero =>
    intro x y h hP
    exact absurd hP.symm (WeierstrassCurve.Affine.Point.some_ne_zero h)
  | mk h' =>
    intro x y h hP
    injection hP with hx hy
    subst hx
    subst hy
    rfl

theorem repAdd {p : ℕ} [Fact (Nat.Prime p)] {a b : ZMod p}
    {P Q : EPoint p} {P' Q' : (shortW a b).Point}
    (hP : Represents (shortW a b) P P') (hQ : Represents (shortW a b) Q Q') :
    Represents (shortW a b) (eAdd p a P Q) (P' + Q') := by
  cases hP with
  | zero =>
    rw [zero_add]
    cases hQ with
    | zero => exact .zero
    | mk h₂ => exact .mk h₂
  | mk h₁ =>
    rename_i x₁ y₁
    cases hQ with
    | zero =>
      rw [add_zero]
      exact .mk h₁
    | mk h₂ =>
      rename_i x₂ y₂
      by_cases hx : x₁ = x₂
      · by_cases hy : y₁ = -y₂
        · have he : eAdd p a (some (x₁, y₁)) (some (x₂, y₂)) = none := by
            simp [eAdd, hx, hy]
          have hm : WeierstrassCurve.Affine.Point.some h₁ +
              WeierstrassCurve.Affine.Point.some h₂ = 0 :=
            WeierstrassCurve.Affine.Point.add_of_Y_eq hx (by rw [shortW_negY]; exact hy)
          rw [he, hm]
          exact .zero
        · have hy' : y₁ ≠ (shortW a b).negY x₂ y₂ := by
            rw [shortW_negY]
            exact hy
          have hyy : y₁ = y₂ :=
            WeierstrassCurve.Affine.Y_eq_of_Y_ne h₁.1 h₂.1 hx hy'
          have hden : 2 * y₁ ≠ 0 := by
            intro hc
            apply hy
            rw [← hyy]
            have : y₁ + y₁ = 0 := by linear_combination hc
            linear_combination this
          have hslope : (shortW a b).slope x₁ x₂ y₁ y₂
              = (3 * x₁ ^ 2 + a) * zinv p (2 * y₁) := by
            rw [WeierstrassCurve.Affine.slope_of_Y_ne hx hy', zinv_eq_inv hden,
              shortW_negY, div_eq_mul_inv]
            congr 1
            · simp [shortW]
            · congr 1
              ring
          have hm := @WeierstrassCurve.Affine.Point.add_of_imp (ZMod p) _ (shortW a b)
            x₁ x₂ y₁ y₂ h₁ h₂ (fun _ => hy')
          rw [hm]
          simp only [eAdd, if_pos hx, if_neg hy]
          refine rep_some_of_eq _ ?_ ?_
          · rw [WeierstrassCurve.Affine.addX, hslope]
            simp only [shortW]
            ring
          · rw [WeierstrassCurve.Affine.addY, WeierstrassCurve.Affine.negAddY,
              WeierstrassCurve.Affine.addX, shortW_negY, hslope]
            simp only [shortW]
            ring
      · have hslope : (shortW a b).slope x₁ x₂ y₁ y₂
            = (y₁ - y₂) * zinv p (x₁ - x₂) := by
          rw [WeierstrassCurve.Affine.slope_of_X_ne hx,
            zinv_eq_inv (sub_ne_zero.mpr hx), div_eq_mul_inv]
        have he : eAdd p a (some (x₁, y₁)) (some (x₂, y₂)) =
            some (((y₁ - y₂) * zinv p (x₁ - x₂)) ^ 2 - x₁ - x₂,
              ((y₁ - y₂) * zinv p (x₁ - x₂)) *
                (x₁ - (((y₁ - y₂) * zinv p (x₁ - x₂)) ^ 2 - x₁ - x₂)) - y₁) := by
          simp only [eAdd, if_neg hx]
        have hm := @WeierstrassCurve.Affine.Point.add_of_X_ne (ZMod p) _ (shortW a b)
          x₁ x₂ y₁ y₂ h₁ h₂ hx
        rw [hm, he]
        refine rep_some_of_eq _ ?_ ?_
        · rw [WeierstrassCurve.Affine.addX, hslope]
          simp only [shortW]
          ring
        · rw [WeierstrassCurve.Affine.addY, WeierstrassCurve.Affine.negAddY,
            WeierstrassCurve.Affine.addX, shortW_negY, hslope]
          simp only [shortW]
          ring

theorem rep_some_pt {F : Type} [Field F] {W : WeierstrassCurve.Affine F}
    {x y : F} {P' : W.Point} (hr : Represents W (some (x, y)) P') :
    ∃ h : W.Nonsingular x y, P' = WeierstrassCurve.Affine.Point.some h := by
  cases hr with
  | mk h => exact ⟨h, rfl⟩

theorem rep_none_inv {F : Type} [Field F] {W : WeierstrassCurve.Affine F}
    {P' : W.Point} (hr : Represents W none P') : P' = 0 := by
  cases hr
  rfl

theorem repSmul {p : ℕ} [Fact (Nat.Prime p)] {a b : ZMod p}
    {P : EPoint p} {P' : (shortW a b).Point}
    (hP : Represents (shortW a b) P P') (m : ℕ) :
    Represents (shortW a b) (eSmul p a m P) (m • P') := by
  induction m with
  | zero =>
    rw [zero_nsmul]
    exact .zero
  | succ k ih =>
    rw [eSmul, succ_nsmul']
    exact repAdd hP ih

theorem smul_mod_order {A : Type} [AddCommGroup A] {n : ℕ} {g : A}
    (hord : n • g = 0) (m : ℕ) : m • g = (m % n) • g := by
  conv_lhs => rw [← Nat.div_add_mod m n]
  rw [add_nsmul, mul_nsmul, hord, smul_zero, zero_add]

theorem val_add_mul_mod {n : ℕ} [NeZero n] (u₁ u₂ d : ZMod n) :
    (u₁.val + u₂.val * d.val) % n = (u₁ + u₂ * d).val := by
  rw [ZMod.val_add, ZMod.val_mul]
  conv_lhs => rw [Nat.add_mod]
  conv_rhs => rw [Nat.add_mod]
  rw [Nat.mod_mod_of_dvd _ dvd_rfl]

/-- Core ECDSA correctness: any signature `ecSign` produces verifies against
the keypair's own public key `d • G`, on any short Weierstrass curve whose
base point generates a subgroup of prime order `n`. -/
theorem ecdsa_sign_verify (p n : ℕ) [Fact (Nat.Prime p)] [Fact (Nat.Prime n)]
    (a b gx gy : ZMod p) (hG : (shortW a b).Nonsingular gx gy)
    (hord : (n : ℕ) • (WeierstrassCurve.Affine.Point.some hG) = 0)
    (d k z : ZMod n) (r s : ZMod n)
    (hsig : ecSign p a (some (gx, gy)) n d k z = some (r, s)) :
    ecVerify p a (some (gx, gy)) n (eSmul p a d.val (some (gx, gy))) z (r, s) = true := by
  haveI : NeZero n := ⟨(Fact.out : Nat.Prime n).ne_zero⟩
  rw [ecSign] at hsig
  by_cases hkr : k.val ≤ 1 ∨ n - 1 ≤ k.val
  · rw [if_pos hkr] at hsig
    exact Option.noConfusion hsig
  rw [if_neg hkr] at hsig
  rcases heq : eSmul p a k.val (some (gx, gy)) with - | ⟨x, y₀⟩
  · simp only [heq] at hsig
    exact Option.noConfusion hsig
  simp only [heq] at hsig
  by_cases hr0 : ((x.val : ZMod n)) = 0
  · rw [if_pos hr0] at hsig
    exact Option.noConfusion hsig
  rw [if_neg hr0] at hsig
  by_cases hs0 : zinv n k * ((x.val : ZMod n) * d + z) = 0
  · rw [if_pos hs0] at hsig
    exact Option.noConfusion hsig
  rw [if_neg hs0] at hsig
  obtain ⟨hr, hs⟩ : (x.val : ZMod n) = r ∧ zinv n k * ((x.val : ZMod n) * d + z) = s := by
    have := Option.some.inj hsig
    exact ⟨congrArg Prod.fst this, congrArg Prod.snd this⟩
  have hk0 : k ≠ 0 := by
    intro hc
    apply hkr
    left
    rw [hc, ZMod.val_zero]
    omega
  have hrne : r ≠ 0 := hr ▸ hr0
  have hsne : s ≠ 0 := hs ▸ hs0
  have hkinv : zinv n k = k⁻¹ := zinv_eq_inv hk0
  have hrd : r * d + z = k * s := by
    rw [← hs, hkinv, ← hr, ← mul_assoc, mul_inv_cancel₀ hk0, one_mul]
  -- the verifier's scalars recombine to the signing nonce
  have hu : zinv n s * z + d * (zinv n s * r) = k := by
    rw [zinv_eq_inv hsne]
    calc s⁻¹ * z + d * (s⁻¹ * r) = s⁻¹ * (r * d + z) := by ring
    _ = s⁻¹ * (k * s) := by rw [hrd]
    _ = k * (s⁻¹ * s) := by ring
    _ = k := by rw [inv_mul_cancel₀ hsne, mul_one]
  -- group side
  have hrepG : Represents (shortW a b) (some (gx, gy))
      (WeierstrassCurve.Affine.Point.some hG) := .mk hG
  have hrepK := repSmul hrepG k.val
  rw [heq] at hrepK
  -- k.val • G is the affine point (x, y₀)
  obtain ⟨hxy₀, hkG⟩ := rep_some_pt hrepK
  rw [ecVerify]
  rw [if_neg hrne, if_neg hsne]
  have hsum : (zinv n s * z).val • WeierstrassCurve.Affine.Point.some hG +
      (zinv n s * r).val • (d.val • WeierstrassCurve.Affine.Point.some hG)
        = WeierstrassCurve.Affine.Point.some hxy₀ := by
    rw [← mul_nsmul, ← add_nsmul, smul_mod_order hord, val_add_mul_mod, hu, ← hkG]
  have hrepSum := repAdd (repSmul hrepG (zinv n s * z).val)
    (repSmul (repSmul hrepG d.val) (zinv n s * r).val)
  rw [hsum] at hrepSum
  have hE := rep_some_inv hrepSum hxy₀ rfl
  simp only [hE, hr]
  simp

/-! ### Digest truncation, DER signatures and compressed keys (the
serialization layers of `KeyPair.prototype.sign`/`verify`) -/

/-- Fuel-bounded bit length, kernel-computable; equals `Nat.size`
(`bitLen_eq_size`), the bn.js `bitLength`. -/
def bitLenGo : ℕ → ℕ → ℕ
  | 0, _ => 0
  | fuel + 1, n => if n = 0 then 0 else bitLenGo fuel (n / 2) + 1

/-- Bit length of a natural number (bn.js `bitLength`). -/
def bitLen (n : ℕ) : ℕ := bitLenGo n n

theorem bitLenGo_eq_size : ∀ fuel n, n ≤ fuel → bitLenGo fuel n = Nat.size n := by
  intro fuel
  induction fuel with
  | zero =>
    intro n hn
    rw [Nat.le_zero.mp hn, Nat.size_zero]
    rfl
  | succ fuel ih =>
    intro n hn
    by_cases h0 : n = 0
    · rw [h0, Nat.size_zero, bitLenGo, if_pos rfl]
    · rw [bitLenGo, if_neg h0, ih (n / 2) (by omega)]
      conv_rhs => rw [← Nat.bit_decomp n]
      rw [Nat.size_bit (by rw [Nat.bit_decomp n]; exact h0)]
      rw [Nat.div2_val]

theorem bitLen_eq_size (n : ℕ) : bitLen n = Nat.size n :=
  bitLenGo_eq_size n n le_rfl

/-- Elliptic's `_truncateToN`: shift the digest down to the bit length of
`n` (using the bignum's own byte length) and subtract `n` once if needed. -/
def truncateToN (n digest : ℕ) : ℕ :=
  let delta := (bitLen digest + 7) / 8 * 8 - bitLen n
  let m := digest >>> delta
  if n ≤ m then m - n else m

/-- The scalar a message is signed over: SHA-256 the message (the wrapper
passes the hex digest, which elliptic parses back to this big-endian value)
and truncate to the group order. -/
def msgZ (n : ℕ) (msg : List ℕ) : ZMod n :=
  (truncateToN n (bytesToNatBE (sha256 msg)) : ZMod n)

/-- One DER INTEGER body: minimal big-endian bytes with a zero pad when the
top bit is set (bn.js `toArray` plus elliptic's `rmPadding`/pad logic). -/
def derInt (m : ℕ) : List ℕ :=
  let bs := if m = 0 then [0] else natToBytesBE ((bitLen m + 7) / 8) m
  if 0x80 ≤ bs.headD 0 then 0 :: bs else bs

/-- Elliptic's `Signature.prototype.toDER`, short form. -/
def derEncode (r s : ℕ) : List ℕ :=
  let rb := derInt r
  let sb := derInt s
  0x30 :: (rb.length + sb.length + 4) :: 0x02 :: rb.length :: (rb ++ 0x02 :: sb.length :: sb)

/-- Elliptic's `importDER`, short form: sequence tag, total length, and two
tagged integers covering the whole buffer. -/
def derDecode (bs : List ℕ) : Option (ℕ × ℕ) :=
  match bs with
  | 0x30 :: len :: rest =>
    if len = rest.length then
      match rest with
      | 0x02 :: lr :: rest₂ =>
        if lr ≤ rest₂.length then
          match rest₂.drop lr with
          | 0x02 :: ls :: rest₃ =>
            if ls = rest₃.length then some (bytesToNatBE (rest₂.take lr), bytesToNatBE rest₃)
            else none
          | _ => none
        else none
      | _ => none
    else none
  | _ => none

/-- The square root elliptic computes for `p ≡ 3 (mod 4)` curves. -/
def zsqrt (p : ℕ) (x : ZMod p) : ZMod p := x ^ ((p + 1) / 4)

/-- The compressed public key bytes of `KeyPair.prototype.getPublicKey`: a
parity prefix and the x-coordinate on the curve's byte length (32 for the
library's secp256k1). -/
def compressPub (p : ℕ) (x y : ZMod p) : List ℕ :=
  (if y.val % 2 = 1 then 3 else 2) :: natToBytesBE ((bitLen p + 7) / 8) x.val

/-- Elliptic's `decodePoint`: a compressed key decompresses through the
curve equation (rejecting an `x` with no square root, as the `redSqrt`
check throws); an uncompressed key is split into coordinates. -/
def keyDecode (p : ℕ) (a b : ZMod p) (bs : List ℕ) : Option (EPoint p) :=
  let blen := (bitLen p + 7) / 8
  match bs with
  | [] => none
  | pre :: rest =>
    if (pre = 2 ∨ pre = 3) ∧ rest.length = blen then
      let x : ZMod p := (bytesToNatBE rest : ZMod p)
      let α := x ^ 3 + a * x + b
      let y₀ := zsqrt p α
      if y₀ * y₀ = α then
        some (some (x, if (y₀.val % 2 = 1) ↔ (pre = 3) then y₀ else -y₀))
      else none
    else if pre = 4 ∧ rest.length = 2 * blen then
      some (some ((bytesToNatBE (rest.take blen) : ZMod p),
        (bytesToNatBE (rest.drop blen) : ZMod p)))
    else none

/-- The sign wrapper of `src/unnamed/part_001`: hash, sign one nonce
attempt, DER-encode, hex-encode. -/
def kpSign (p : ℕ) (a : ZMod p) (g : EPoint p) (n : ℕ) (d k : ZMod n) (msg : List ℕ) :
    Option String :=
  (ecSign p a g n d k (msgZ n msg)).map fun rs => bytesToHex (derEncode rs.1.val rs.2.val)

/-- The verify wrapper of `src/unnamed/part_001`: hex-decode the inputs
(node buffers, non-throwing), decode the public key and the DER signature
(each throwing on malformed data), then run the boolean core check. -/
def kpVerify (p : ℕ) (a b : ZMod p) (g : EPoint p) (n : ℕ) (msg : List ℕ)
    (pubHex sigHex : String) : Except String Bool :=
  match keyDecode p a b (nodeHexDecode pubHex) with
  | none => .error "Unknown point format"
  | some q =>
    match derDecode (nodeHexDecode sigHex) with
    | none => .error "Signature without r and s"
    | some rs => .ok (ecVerifyNat p a g n q (msgZ n msg) rs.1 rs.2)

theorem natToBytesBE_succ (L m : ℕ) :
    natToBytesBE (L + 1) m = (m / 256 ^ L % 256) :: natToBytesBE L m := by
  rw [natToBytesBE, natToBytesBE, List.range_succ_eq_map, List.map_cons, List.map_map]
  refine congrArg₂ _ (by simp) (List.map_congr_left ?_)
  intro i hi
  simp only [Function.comp_apply]
  have he : L + 1 - 1 - (i + 1) = L - 1 - i := by omega
  rw [he]

theorem foldl_byte_acc (bs : List ℕ) (acc : ℕ) :
    bs.foldl (fun a b => a * 256 + b) acc
      = acc * 256 ^ bs.length + bs.foldl (fun a b => a * 256 + b) 0 := by
  induction bs generalizing acc with
  | nil => simp
  | cons b rest ih =>
    rw [List.foldl_cons, List.foldl_cons, ih (acc * 256 + b), ih (0 * 256 + b)]
    ring_nf
    rw [List.length_cons]
    ring

theorem bytesToNatBE_natToBytesBE (L m : ℕ) :
    bytesToNatBE (natToBytesBE L m) = m % 256 ^ L := by
  induction L with
  | zero => simp [natToBytesBE, bytesToNatBE, Nat.mod_one]
  | succ L ih =>
    rw [natToBytesBE_succ, bytesToNatBE, List.foldl_cons,
      foldl_byte_acc, Nat.mod_pow_succ]
    have hlen : (natToBytesBE L m).length = L := by simp [natToBytesBE]
    rw [hlen]
    have : (natToBytesBE L m).foldl (fun a b => a * 256 + b) 0 = m % 256 ^ L := ih
    rw [this]
    ring

theorem bytesToNatBE_of_lt {L m : ℕ} (h : m < 256 ^ L) :
    bytesToNatBE (natToBytesBE L m) = m := by
  rw [bytesToNatBE_natToBytesBE, Nat.mod_eq_of_lt h]

theorem lt_pow256_of_size {m L : ℕ} (h : Nat.size m ≤ 8 * L) : m < 256 ^ L := by
  have := Nat.size_le.mp h
  calc m < 2 ^ (8 * L) := this
  _ = 256 ^ L := by rw [pow_mul] ; norm_num

theorem bytesToNatBE_zero_cons (bs : List ℕ) :
    bytesToNatBE (0 :: bs) = bytesToNatBE bs := by
  rw [bytesToNatBE, bytesToNatBE, List.foldl_cons]

theorem pad_value (m : ℕ) (l : List ℕ) (hl : bytesToNatBE l = m) :
    bytesToNatBE (if 0x80 ≤ l.headD 0 then 0 :: l else l) = m := by
  split
  · rw [bytesToNatBE_zero_cons, hl]
  · exact hl

theorem bytesToNatBE_derInt (m : ℕ) : bytesToNatBE (derInt m) = m := by
  have hval : bytesToNatBE (if m = 0 then [0] else natToBytesBE ((bitLen m + 7) / 8) m)
      = m := by
    by_cases hm : m = 0
    · simp [hm, bytesToNatBE]
    · rw [if_neg hm, bitLen_eq_size]
      exact bytesToNatBE_of_lt (lt_pow256_of_size (by omega))
  rw [derInt]
  exact pad_value m _ hval

theorem pad_bytes_lt (l : List ℕ) (hl : ∀ y ∈ l, y < 256) :
    ∀ x ∈ (if 0x80 ≤ l.headD 0 then 0 :: l else l), x < 256 := by
  intro x hx
  split at hx
  · rcases List.mem_cons.mp hx with rfl | hx
    · omega
    · exact hl x hx
  · exact hl x hx

theorem derInt_bytes_lt (m : ℕ) : ∀ x ∈ derInt m, x < 256 := by
  have hbase : ∀ y ∈ (if m = 0 then [0] else natToBytesBE ((bitLen m + 7) / 8) m),
      y < 256 := by
    intro y hy
    split at hy
    · simp at hy
      omega
    · exact natToBytesBE_lt _ _ y hy
  rw [derInt]
  exact pad_bytes_lt _ hbase

theorem derDecode_derEncode (r s : ℕ) : derDecode (derEncode r s) = some (r, s) := by
  rw [derEncode, derDecode]
  rw [if_pos (by simp [List.length_append]; omega)]
  rw [if_pos (by simp [List.length_append])]
  rw [List.drop_left, List.take_left]
  show (if (derInt s).length = (derInt s).length
      then some (bytesToNatBE (derInt r), bytesToNatBE (derInt s)) else none) = some (r, s)
  rw [if_pos rfl, bytesToNatBE_derInt, bytesToNatBE_derInt]

theorem sq_roots {F : Type} [Field F] {t : F} (h : t ^ 2 = 1) : t = 1 ∨ t = -1 := by
  have : (t - 1) * (t + 1) = 0 := by linear_combination h
  rcases mul_eq_zero.mp this with h1 | h1
  · left
    linear_combination h1
  · right
    linear_combination h1

theorem zsqrt_of_sq {p : ℕ} [Fact (Nat.Prime p)] (hp4 : p % 4 = 3) (y : ZMod p) :
    zsqrt p (y ^ 2) = y ∨ zsqrt p (y ^ 2) = -y := by
  have hp2 : 2 ≤ p := (Fact.out : Nat.Prime p).two_le
  have hp3 : 3 ≤ p := by omega
  by_cases hy : y = 0
  · left
    rw [hy, zsqrt]
    rw [show (0 : ZMod p) ^ 2 = 0 by ring]
    exact zero_pow (by omega)
  · have h4 : 4 ∣ p + 1 := by omega
    have hpow : zsqrt p (y ^ 2) = y ^ ((p - 1) / 2) * y := by
      rw [zsqrt, ← pow_mul]
      rw [show 2 * ((p + 1) / 4) = (p - 1) / 2 + 1 by omega]
      rw [pow_succ]
    have hsq : (y ^ ((p - 1) / 2)) ^ 2 = 1 := by
      rw [← pow_mul]
      rw [show (p - 1) / 2 * 2 = p - 1 by omega]
      exact ZMod.pow_card_sub_one_eq_one hy
    rcases sq_roots hsq with h1 | h1
    · left
      rw [hpow, h1, one_mul]
    · right
      rw [hpow, h1]
      ring

theorem val_parity_neg {p : ℕ} [Fact (Nat.Prime p)] (hodd : p % 2 = 1) {y : ZMod p}
    (hy : y ≠ 0) : (-y).val % 2 = (1 - y.val % 2) % 2 := by
  haveI : NeZero p := ⟨(Fact.out : Nat.Prime p).ne_zero⟩
  rw [ZMod.neg_val, if_neg hy]
  have h1 : y.val < p := ZMod.val_lt y
  have h2 : y.val ≠ 0 := by
    intro hc
    exact hy ((ZMod.val_eq_zero y).mp hc)
  omega

theorem keyDecode_compressPub (p : ℕ) [Fact (Nat.Prime p)] (hp4 : p % 4 = 3)
    (a b x y : ZMod p) (hxy : y ^ 2 = x ^ 3 + a * x + b) :
    keyDecode p a b (compressPub p x y) = some (some (x, y)) := by
  haveI : NeZero p := ⟨(Fact.out : Nat.Prime p).ne_zero⟩
  have hp2 : 2 ≤ p := (Fact.out : Nat.Prime p).two_le
  have hxlt : x.val < 256 ^ ((bitLen p + 7) / 8) := by
    rw [bitLen_eq_size]
    have h1 : x.val < p := ZMod.val_lt x
    have h2 : p < 2 ^ Nat.size p := Nat.lt_size_self p
    refine lt_of_lt_of_le (h1.trans h2) ?_
    calc 2 ^ Nat.size p ≤ 2 ^ (8 * ((Nat.size p + 7) / 8)) :=
      Nat.pow_le_pow_right (by omega) (by omega)
    _ = 256 ^ ((Nat.size p + 7) / 8) := by rw [pow_mul]; norm_num
  have hxdec : ((bytesToNatBE (natToBytesBE ((bitLen p + 7) / 8) x.val) : ℕ) : ZMod p)
      = x := by
    rw [bytesToNatBE_of_lt hxlt]
    exact ZMod.natCast_rightInverse x
  have hlen : (natToBytesBE ((bitLen p + 7) / 8) x.val).length = (bitLen p + 7) / 8 := by
    simp [natToBytesBE]
  rw [compressPub, keyDecode]
  rw [if_pos (by refine ⟨?_, hlen⟩; split <;> simp)]
  rw [hxdec]
  show (if zsqrt p (x ^ 3 + a * x + b) * zsqrt p (x ^ 3 + a * x + b) = x ^ 3 + a * x + b
      then some (some (x,
        if (zsqrt p (x ^ 3 + a * x + b)).val % 2 = 1 ↔ (if y.val % 2 = 1 then 3 else 2) = 3
        then zsqrt p (x ^ 3 + a * x + b) else -zsqrt p (x ^ 3 + a * x + b)))
      else none) = some (some (x, y))
  rw [← hxy]
  rcases zsqrt_of_sq hp4 y with h0 | h0
  · rw [h0, if_pos (by ring)]
    refine congrArg _ (congrArg _ (congrArg _ ?_))
    by_cases hy2 : y.val % 2 = 1
    · rw [if_pos hy2, if_pos (by simp [hy2])]
    · rw [if_neg hy2, if_pos (by simp [hy2])]
  · by_cases hyy : -y = y
    · rw [h0, hyy, if_pos (by ring)]
      refine congrArg _ (congrArg _ (congrArg _ ?_))
      by_cases hy2 : y.val % 2 = 1
      · rw [if_pos hy2, if_pos (by simp [hy2])]
      · rw [if_neg hy2, if_pos (by simp [hy2])]
    · have hy0 : y ≠ 0 := by
        intro hc
        exact hyy (by rw [hc, neg_zero])
      have hpar := val_parity_neg (by omega) hy0
      rw [h0, if_pos (by ring)]
      refine congrArg _ (congrArg _ (congrArg _ ?_))
      by_cases hy2 : y.val % 2 = 1
      · rw [if_pos hy2, if_neg (by simp [hpar, hy2]), neg_neg]
      · rw [if_neg hy2, if_neg ?_, neg_neg]
        have hv2 : y.val % 2 = 0 := by omega
        simp [hpar, hv2, hy2]


theorem ecSign_some (p : ℕ) (a : ZMod p) (g : EPoint p) (n : ℕ) (d k z : ZMod n)
    (r s : ZMod n) (hsig : ecSign p a g n d k z = some (r, s)) : r ≠ 0 ∧ s ≠ 0 := by
  rw [ecSign] at hsig
  by_cases hkr : k.val ≤ 1 ∨ n - 1 ≤ k.val
  · rw [if_pos hkr] at hsig
    exact Option.noConfusion hsig
  rw [if_neg hkr] at hsig
  rcases heq : eSmul p a k.val g with - | ⟨x, y₀⟩ <;> simp only [heq] at hsig
  · exact Option.noConfusion hsig
  by_cases hr0 : (x.val : ZMod n) = 0
  · rw [if_pos hr0] at hsig
    exact Option.noConfusion hsig
  rw [if_neg hr0] at hsig
  by_cases hs0 : zinv n k * ((x.val : ZMod n) * d + z) = 0
  · rw [if_pos hs0] at hsig
    exact Option.noConfusion hsig
  rw [if_neg hs0] at hsig
  obtain ⟨hr, hs⟩ : (x.val : ZMod n) = r ∧ zinv n k * ((x.val : ZMod n) * d + z) = s := by
    have h := Option.some.inj hsig
    exact ⟨congrArg Prod.fst h, congrArg Prod.snd h⟩
  exact ⟨hr ▸ hr0, hs ▸ hs0⟩

theorem derInt_length_le (m : ℕ) : (derInt m).length ≤ (bitLen m + 7) / 8 + 1 := by
  by_cases hm : m = 0
  · subst hm
    simp [derInt]
  · rw [derInt, if_neg hm]
    split
    · simp [natToBytesBE]
    · simp [natToBytesBE]

theorem derEncode_bytes_lt {r s bound : ℕ} (hr : Nat.size r ≤ bound) (hs : Nat.size s ≤ bound)
    (hb : (bound + 7) / 8 * 2 + 6 < 256) : ∀ x ∈ derEncode r s, x < 256 := by
  intro x hx
  have hrl : (derInt r).length ≤ (bound + 7) / 8 + 1 :=
    (derInt_length_le r).trans (by rw [bitLen_eq_size]; omega)
  have hsl : (derInt s).length ≤ (bound + 7) / 8 + 1 :=
    (derInt_length_le s).trans (by rw [bitLen_eq_size]; omega)
  rw [derEncode] at hx
  rcases List.mem_cons.mp hx with rfl | hx
  · omega
  rcases List.mem_cons.mp hx with rfl | hx
  · omega
  rcases List.mem_cons.mp hx with rfl | hx
  · omega
  rcases List.mem_cons.mp hx with rfl | hx
  · omega
  rcases List.mem_append.mp hx with hx | hx
  · exact derInt_bytes_lt r x hx
  rcases List.mem_cons.mp hx with rfl | hx
  · omega
  rcases List.mem_cons.mp hx with rfl | hx
  · omega
  exact derInt_bytes_lt s x hx

theorem compressPub_bytes_lt (p : ℕ) (x y : ZMod p) : ∀ v ∈ compressPub p x y, v < 256 := by
  intro v hv
  rw [compressPub] at hv
  rcases List.mem_cons.mp hv with rfl | hv
  · split <;> omega
  · exact natToBytesBE_lt _ _ v hv

/-! ### Claim C4 -/

/-- C4: for every message and every keypair (private scalar `d`, nonce
attempt `k`) on a short Weierstrass curve with a prime-order base point —
the library instantiates this at secp256k1 — whenever the `sign` wrapper
produces a DER hex signature, the `verify` wrapper accepts it against the
keypair's own compressed public key. -/
theorem keypair_sign_verify (p n : ℕ) [Fact (Nat.Prime p)] [Fact (Nat.Prime n)]
    (hp4 : p % 4 = 3) (hn : n < 2 ^ 400)
    (a b gx gy : ZMod p) (hG : (shortW a b).Nonsingular gx gy)
    (hord : (n : ℕ) • (WeierstrassCurve.Affine.Point.some hG) = 0)
    (d k : ZMod n) (msg : List ℕ) (qx qy : ZMod p)
    (hQ : eSmul p a d.val (some (gx, gy)) = some (qx, qy))
    (sigHex : String)
    (hsig : kpSign p a (some (gx, gy)) n d k msg = some sigHex) :
    kpVerify p a b (some (gx, gy)) n msg (bytesToHex (compressPub p qx qy)) sigHex
      = .ok true := by
  haveI : NeZero n := ⟨(Fact.out : Nat.Prime n).ne_zero⟩
  rcases hEC : ecSign p a (some (gx, gy)) n d k (msgZ n msg) with - | ⟨r, s⟩
  · rw [kpSign, hEC] at hsig
    exact Option.noConfusion hsig
  rw [kpSign, hEC, Option.map_some'] at hsig
  have hshex : sigHex = bytesToHex (derEncode r.val s.val) := (Option.some.inj hsig).symm
  subst hshex
  have hsizen : Nat.size n ≤ 400 := Nat.size_le.mpr hn
  have hsizer : Nat.size r.val ≤ 400 :=
    (Nat.size_le_size (Nat.le_of_lt (ZMod.val_lt r))).trans hsizen
  have hsizes : Nat.size s.val ≤ 400 :=
    (Nat.size_le_size (Nat.le_of_lt (ZMod.val_lt s))).trans hsizen
  have hsigdec : nodeHexDecode (bytesToHex (derEncode r.val s.val))
      = derEncode r.val s.val :=
    nodeHexDecode_bytesToHex _ (derEncode_bytes_lt hsizer hsizes (by norm_num))
  have hpubdec : nodeHexDecode (bytesToHex (compressPub p qx qy)) = compressPub p qx qy :=
    nodeHexDecode_bytesToHex _ (compressPub_bytes_lt p qx qy)
  have hrepG : Represents (shortW a b) (some (gx, gy))
      (WeierstrassCurve.Affine.Point.some hG) := .mk hG
  have hrepQ := repSmul hrepG d.val
  rw [hQ] at hrepQ
  obtain ⟨hQns, -⟩ := rep_some_pt hrepQ
  have hQeq : qy ^ 2 = qx ^ 3 + a * qx + b := by
    have h1 := hQns.1
    rw [WeierstrassCurve.Affine.equation_iff] at h1
    simp only [shortW] at h1
    linear_combination h1
  have hkey := keyDecode_compressPub p hp4 a b qx qy hQeq
  obtain ⟨hrne, hsne⟩ := ecSign_some p a (some (gx, gy)) n d k (msgZ n msg) r s hEC
  rw [kpVerify, hpubdec, hkey, hsigdec, derDecode_derEncode]
  refine congrArg Except.ok ?_
  rw [ecVerifyNat]
  rw [if_neg (by push_neg; exact ⟨fun hc => hrne ((ZMod.val_eq_zero r).mp hc),
    ZMod.val_lt r⟩)]
  rw [if_neg (by push_neg; exact ⟨fun hc => hsne ((ZMod.val_eq_zero s).mp hc),
    ZMod.val_lt s⟩)]
  rw [ZMod.natCast_rightInverse r, ZMod.natCast_rightInverse s, ← hQ]
  exact ecdsa_sign_verify p n a b gx gy hG hord d k (msgZ n msg) r s hEC

set_option maxRecDepth 8000 in
/-- C4 witness: on the order-5 curve `y² = x³ + x + 1` over `ZMod 7` with
base point `(0, 1)`, the keypair with private scalar 1 and nonce 2 signs
the empty message into a concrete DER hex signature that its own compressed
public key verifies. -/
theorem keypair_sign_verify_witness :
    Nat.Prime 7 ∧ Nat.Prime 5 ∧ 7 % 4 = 3 ∧ (5 : ℕ) < 2 ^ 400 ∧
    (shortW (1 : ZMod 7) 1).Nonsingular 0 1 ∧
    eSmul 7 1 5 (some (0, 1)) = none ∧
    eSmul 7 1 (1 : ZMod 5).val (some (0, 1)) = some (0, 1) ∧
    kpSign 7 1 (some (0, 1)) 5 1 2 [] = some "3006020102020102" ∧
    kpVerify 7 1 1 (some (0, 1)) 5 [] (bytesToHex (compressPub 7 0 1)) "3006020102020102"
      = .ok true := by
  have hG : (shortW (1 : ZMod 7) 1).Nonsingular 0 1 := by
    rw [WeierstrassCurve.Affine.nonsingular_iff, WeierstrassCurve.Affine.equation_iff]
    constructor
    · decide
    · right
      decide
  have h5 : eSmul 7 1 5 (some ((0 : ZMod 7), (1 : ZMod 7))) = none := rfl
  have hQ : eSmul 7 1 (1 : ZMod 5).val (some ((0 : ZMod 7), (1 : ZMod 7)))
      = some (0, 1) := rfl
  have hsig : kpSign 7 1 (some (0, 1)) 5 1 2 [] = some "3006020102020102" := rfl
  haveI i7 : Fact (Nat.Prime 7) := ⟨by decide⟩
  haveI i5 : Fact (Nat.Prime 5) := ⟨by decide⟩
  have hrep5 := repSmul (Represents.mk hG) 5
  rw [h5] at hrep5
  have hord : (5 : ℕ) • WeierstrassCurve.Affine.Point.some hG = 0 := rep_none_inv hrep5
  exact ⟨by decide, by decide, by decide, by decide, hG, h5, hQ, hsig,
    keypair_sign_verify 7 5 (by decide) (by decide) _ _ _ _ hG hord _ _ [] _ _ hQ
      _ hsig⟩

/-! ### Claim C9 -/

/-- C9: the `verify` wrapper never throws on a merely-invalid signature:
whenever the public key decodes and the DER signature parses, the result is
`.ok` of the boolean core check — whatever that boolean is — and an
exception (`.error`, the model of a throw in `elliptic`'s key/signature
parsers) occurs only when the key or the signature is malformed. -/
theorem verify_no_throw (p : ℕ) (a b : ZMod p) (g : EPoint p) (n : ℕ)
    (msg : List ℕ) (pubHex sigHex : String) :
    (∀ q rs, keyDecode p a b (nodeHexDecode pubHex) = some q →
      derDecode (nodeHexDecode sigHex) = some rs →
      kpVerify p a b g n msg pubHex sigHex
        = .ok (ecVerifyNat p a g n q (msgZ n msg) rs.1 rs.2)) ∧
    (∀ e, kpVerify p a b g n msg pubHex sigHex = .error e →
      keyDecode p a b (nodeHexDecode pubHex) = none ∨
      derDecode (nodeHexDecode sigHex) = none) := by
  constructor
  · intro q rs hq hrs
    rw [kpVerify, hq, hrs]
  · intro e he
    rw [kpVerify] at he
    rcases hq : keyDecode p a b (nodeHexDecode pubHex) with - | q
    · exact Or.inl rfl
    simp only [hq] at he
    rcases hrs : derDecode (nodeHexDecode sigHex) with - | rs
    · exact Or.inr rfl
    simp only [hrs] at he
    exact Except.noConfusion he

set_option maxRecDepth 8000 in
/-- C9 witness: on the toy curve of the C4 witness, the well-formed DER
signature `(r, s) = (1, 1)` does not match the empty message under the
public key `0300`, and `verify` returns the boolean `false` instead of
throwing. -/
theorem verify_no_throw_witness :
    keyDecode 7 1 1 (nodeHexDecode "0300") = some (some (0, 1)) ∧
    derDecode (nodeHexDecode "3006020101020101") = some (1, 1) ∧
    kpVerify 7 1 1 (some (0, 1)) 5 [] "0300" "3006020101020101" = .ok false := by
  have hq : keyDecode 7 1 1 (nodeHexDecode "0300") = some (some (0, 1)) := rfl
  have hrs : derDecode (nodeHexDecode "3006020101020101") = some (1, 1) := rfl
  have h := (verify_no_throw 7 1 1 (some (0, 1)) 5 [] "0300" "3006020101020101").1
    (some (0, 1)) (1, 1) hq hrs
  refine ⟨hq, hrs, ?_⟩
  rw [h]
  rfl

end BridgeClient
